import Mathlib

/-!
# Verification of the TSP genetic-algorithm core (`travelling_salesman3.py`)

Cities are modelled by their (unique) identifiers, as natural numbers; a
chromosome is a `List Nat`.  The Python random draws (mutation points,
crossover cut points, `randrange` values, `random.choices` indices) are made
explicit function arguments, with the side conditions the library guarantees
(distinctness, bounds, sortedness) as hypotheses of the theorems.

Partially-built chromosomes (Python lists containing `None`) are modelled as
`List (Option Nat)`; `none` is Python's `None`.
-/

namespace TSP

open scoped List

/-- Python slice `l[a:b]` (for `0 ≤ a`, `0 ≤ b`). -/
def pySlice (l : List α) (a b : Nat) : List α :=
  (l.take b).drop a

/-- Python slice `l[-k:]`: the trailing `k` elements, except that for
`k = 0` it is `l[0:]`, the whole list. -/
def pyLastSlice (l : List α) (k : Nat) : List α :=
  if k = 0 then l else l.drop (l.length - k)

/-- `Genome.__swap_mutation`: exchange the cities at the two drawn
positions `p1`, `p2` (`random.sample`: distinct, in range).  The tuple
assignment reads both old values before writing. -/
def swap_mutation (l : List Nat) (p1 p2 : Nat) : List Nat :=
  (l.set p1 (l.getD p2 0)).set p2 (l.getD p1 0)

/-- `Genome.__inversion_mutation`: sort the two drawn points, reverse the
sub-segment `l[p1:p2]` and splice it back. -/
def inversion_mutation (l : List Nat) (q1 q2 : Nat) : List Nat :=
  let p1 := min q1 q2
  let p2 := max q1 q2
  l.take p1 ++ (pySlice l p1 p2).reverse ++ l.drop p2

/-- `Genome.__two_opt_mutation`: build the two (wrapping) edges
`edge1 = (p1, (p1+1) % n)` and `edge2 = (p2, (p2+1) % n)` and exchange the
cities at positions `edge1[1]` and `edge2[0]` (sic: the code uses the
*start* of the second edge, not its successor). -/
def two_opt_mutation (l : List Nat) (p1 p2 : Nat) : List Nat :=
  let edge1 : Nat × Nat := (p1, (p1 + 1) % l.length)
  let edge2 : Nat × Nat := (p2, (p2 + 1) % l.length)
  (l.set edge1.2 (l.getD edge2.1 0)).set edge2.1 (l.getD edge1.2 0)

/-- `Genome.mutate`: dispatch on the mutation-kind string.  For kind
`"random"` the code draws `rand = random.randrange(4)` and applies swap,
inversion or 2-opt for `rand = 0, 1, 2`; for `rand = 3` no branch is taken
and the chromosome is left unchanged.  An unknown kind raises
`Exception('Invalid mutation type')`. -/
def mutate (mtype : String) (rand p1 p2 : Nat) (l : List Nat) :
    Except String (List Nat) :=
  if mtype = "swap" then .ok (swap_mutation l p1 p2)
  else if mtype = "inverse" then .ok (inversion_mutation l p1 p2)
  else if mtype = "2-opt" then .ok (two_opt_mutation l p1 p2)
  else if mtype = "random" then
    if rand = 0 then .ok (swap_mutation l p1 p2)
    else if rand = 1 then .ok (inversion_mutation l p1 p2)
    else if rand = 2 then .ok (two_opt_mutation l p1 p2)
    else .ok l
  else .error "Invalid mutation type"

/-- A fresh child chromosome after the Python slice assignment
`child[p1:p2] = seg` on `[None] * n`. -/
def initChild (n p1 p2 : Nat) (seg : List Nat) : List (Option Nat) :=
  (List.replicate n (none : Option Nat)).take p1 ++ seg.map some ++
    (List.replicate n (none : Option Nat)).drop p2

/-- The rotated parent built by the first loop of `orderly_insert`
(`swapped_parent_x`): element `k` is `parent[(point2 + k) % n]`. -/
def swappedParent (parentX : List Nat) (point2 : Nat) : List Nat :=
  (List.range parentX.length).map
    (fun k => parentX.getD ((point2 + k) % parentX.length) 0)

/-- The second loop of `orderly_insert`: walk the rotated parent, skip
genes already present in the child, write accepted genes at position
`p % n`, incrementing `p` only on acceptance. -/
def oxFill : List Nat → List (Option Nat) → Nat → List (Option Nat)
  | [], childX, _ => childX
  | gene :: rest, childX, p =>
    if some gene ∈ childX then oxFill rest childX p
    else oxFill rest (childX.set (p % childX.length) (some gene)) (p + 1)

/-- `orderly_insert(parent_x, child_x, point2)` from `__order_crossover`. -/
def orderly_insert (parentX : List Nat) (childX : List (Option Nat))
    (point2 : Nat) : List (Option Nat) :=
  oxFill (swappedParent parentX point2) childX point2

/-- `Genome.__order_crossover` with the two sorted cut points `p1 < p2`
made explicit.  Child 1 takes parent 2's segment and is filled from
parent 1, and symmetrically for child 2. -/
def order_crossover (p1 p2 : Nat) (parent1 parent2 : List Nat) :
    List (Option Nat) × List (Option Nat) :=
  let child1 := initChild parent1.length p1 p2 (pySlice parent2 p1 p2)
  let child2 := initChild parent2.length p1 p2 (pySlice parent1 p1 p2)
  (orderly_insert parent1 child1 p2, orderly_insert parent2 child2 p2)

/-- Fuelled version of `get_gene_counterpart` from
`__partially_mapped_crossover`: find the first mapping pair containing the
gene, replace the gene by the pair's other component, remove the pair and
recurse.  The fuel only bounds the recursion depth; `get_gene_counterpart`
below runs it with fuel equal to the length of the mapping list, which is
always enough because every step removes one pair. -/
def getGeneCounterpartFuel : Nat → Nat → List (Nat × Nat) → Nat
  | 0, gene, _ => gene
  | fuel + 1, gene, mappings =>
    match mappings.find? (fun mv => gene == mv.1 || gene == mv.2) with
    | none => gene
    | some mv =>
      let gene' := if mv.1 ≠ gene then mv.1 else mv.2
      getGeneCounterpartFuel fuel gene' (mappings.erase mv)

/-- `get_gene_counterpart(gene, mappings)`: the recursive PMX mapping
resolution. -/
def get_gene_counterpart (gene : Nat) (mappings : List (Nat × Nat)) : Nat :=
  getGeneCounterpartFuel mappings.length gene mappings

/-- `fill_chromosome` from `__partially_mapped_crossover`: for every
position outside `[p1, p2)` copy the parent gene if it is absent from the
(partially filled) child, otherwise place its resolved counterpart
(computed on a fresh copy of the mapping list). -/
def pmx_fill_chromosome (p1 p2 : Nat) (mappings : List (Nat × Nat))
    (chromosome : List (Option Nat)) (parentX : List Nat) :
    List (Option Nat) :=
  (List.range parentX.length).foldl (fun chrom i =>
    if i < p1 ∨ p2 ≤ i then
      if some (parentX.getD i 0) ∈ chrom then
        chrom.set i (some (get_gene_counterpart (parentX.getD i 0) mappings))
      else chrom.set i (some (parentX.getD i 0))
    else chrom) chromosome

/-- `Genome.__partially_mapped_crossover` with the two sorted cut points
`p1 < p2` made explicit. -/
def partially_mapped_crossover (p1 p2 : Nat) (parent1 parent2 : List Nat) :
    List (Option Nat) × List (Option Nat) :=
  let parent1_segment := pySlice parent1 p1 p2
  let parent2_segment := pySlice parent2 p1 p2
  let mappings := parent1_segment.zip parent2_segment
  let child1 := pmx_fill_chromosome p1 p2 mappings
    (initChild parent1.length p1 p2 parent2_segment) parent1
  let child2 := pmx_fill_chromosome p1 p2 mappings
    (initChild parent1.length p1 p2 parent1_segment) parent2
  (child1, child2)

/-- The `while not cycled` loop of `Genome.__cycle_crossover`, with an
explicit fuel (the Python loop has none; with valid permutation parents it
terminates within `n` iterations, which `cycle_crossover` supplies).
Each iteration writes parent 1's current gene into child 1 and parent 2's
gene into child 2 at the current index, then jumps to the index of the
current gene inside parent 2; the loop stops when the gene cycles back to
the first gene. -/
def cx_loop (parent1 parent2 : List Nat) (firstGene : Nat) :
    Nat → Nat → Nat → List (Option Nat) → List (Option Nat) →
    Option (List (Option Nat) × List (Option Nat))
  | 0, _, _, _, _ => none
  | fuel + 1, index, gene, child1, child2 =>
    if parent1.getD (parent2.indexOf gene) 0 = firstGene then
      some (child1.set index (some gene),
        child2.set index (some (parent2.getD index 0)))
    else
      cx_loop parent1 parent2 firstGene fuel (parent2.indexOf gene)
        (parent1.getD (parent2.indexOf gene) 0)
        (child1.set index (some gene))
        (child2.set index (some (parent2.getD index 0)))

/-- `fill_chromosome` from `__cycle_crossover`: every position still
holding `None` receives the other parent's gene at the same index. -/
def cx_fill_chromosome (chromosome : List (Option Nat)) (parentX : List Nat) :
    List (Option Nat) :=
  List.zipWith (fun o g => some (o.getD g)) chromosome parentX

/-- `Genome.__cycle_crossover`.  `none` models a non-terminating cycle
walk (impossible for valid permutation parents, which is proved below). -/
def cycle_crossover (parent1 parent2 : List Nat) :
    Option (List (Option Nat) × List (Option Nat)) :=
  match cx_loop parent1 parent2 (parent1.getD 0 0) parent1.length 0
      (parent1.getD 0 0) (List.replicate parent1.length (none : Option Nat))
      (List.replicate parent1.length (none : Option Nat)) with
  | none => none
  | some (c1, c2) =>
    some (cx_fill_chromosome c1 parent2, cx_fill_chromosome c2 parent1)

/-- `Genome.crossover`: dispatch on the crossover-kind string.  The Python
`if/elif/elif` chain has no `else`, so an unknown kind makes the method
return `None` (modelled by `.ok none`) — no exception is raised. -/
def crossover (cType : String) (p1 p2 : Nat) (parent1 parent2 : List Nat) :
    Except String (Option (List (Option Nat) × List (Option Nat))) :=
  if cType = "ox" then .ok (some (order_crossover p1 p2 parent1 parent2))
  else if cType = "pmx" then .ok (some (partially_mapped_crossover p1 p2 parent1 parent2))
  else if cType = "cx" then .ok (cycle_crossover parent1 parent2)
  else .ok none

/-- The spec's description (claim C3) of the edge-exchange mutation:
swap the cities at the two *successor* positions `s1 = (p1+1) mod n` and
`s2 = (p2+1) mod n`.  Stated only to be compared with the code's
`two_opt_mutation`. -/
def specTwoOpt (l : List Nat) (p1 p2 : Nat) : List Nat :=
  let s1 := (p1 + 1) % l.length
  let s2 := (p2 + 1) % l.length
  (l.set s1 (l.getD s2 0)).set s2 (l.getD s1 0)

theorem count_set (a x : Nat) :
    ∀ (l : List Nat) (i : Nat), i < l.length →
    (l.set i x).count a + (if l.getD i 0 = a then 1 else 0)
      = l.count a + (if x = a then 1 else 0) := by
  intro l
  induction l with
  | nil => intro i h; simp at h
  | cons b t ih =>
    intro i h
    cases i with
    | zero =>
      simp only [List.set_cons_zero, List.getD_cons_zero, List.count_cons, beq_iff_eq]
      split_ifs <;> omega
    | succ j =>
      have hj : j < t.length := by simpa using h
      have ih' := ih j hj
      simp only [List.set_cons_succ, List.getD_cons_succ, List.count_cons, beq_iff_eq]
      split_ifs at ih' ⊢ <;> omega

theorem getD_set_same (l : List Nat) (p1 p2 : Nat) (h : p2 < l.length) :
    (l.set p1 (l.getD p2 0)).getD p2 0 = l.getD p2 0 := by
  have h' : p2 < (l.set p1 (l.getD p2 0)).length := by simpa using h
  by_cases hp : p1 = p2
  · subst hp
    rw [List.getD_eq_getElem _ _ h', List.getElem_set_self]
  · rw [List.getD_eq_getElem _ _ h', List.getElem_set_ne hp]
    exact (List.getD_eq_getElem _ _ h).symm

theorem swap_mutation_perm (l : List Nat) (p1 p2 : Nat)
    (h1 : p1 < l.length) (h2 : p2 < l.length) :
    swap_mutation l p1 p2 ~ l := by
  rw [List.perm_iff_count]
  intro a
  have e1 := count_set a (l.getD p2 0) l p1 h1
  have h2' : p2 < (l.set p1 (l.getD p2 0)).length := by simpa using h2
  have e2 := count_set a (l.getD p1 0) (l.set p1 (l.getD p2 0)) p2 h2'
  rw [getD_set_same l p1 p2 h2] at e2
  unfold swap_mutation
  split_ifs at e1 e2 <;> omega

theorem take_append_pySlice (l : List Nat) (p1 p2 : Nat) (h : p1 ≤ p2) :
    l.take p1 ++ pySlice l p1 p2 = l.take p2 := by
  unfold pySlice
  conv_lhs =>
    rw [show l.take p1 = (l.take p2).take p1 by
      rw [List.take_take, Nat.min_eq_left h]]
  exact List.take_append_drop p1 (l.take p2)

theorem inversion_mutation_perm (l : List Nat) (q1 q2 : Nat) :
    inversion_mutation l q1 q2 ~ l := by
  unfold inversion_mutation
  have hmm : min q1 q2 ≤ max q1 q2 := min_le_max
  calc l.take (min q1 q2) ++ (pySlice l (min q1 q2) (max q1 q2)).reverse
        ++ l.drop (max q1 q2)
      ~ l.take (min q1 q2) ++ pySlice l (min q1 q2) (max q1 q2)
        ++ l.drop (max q1 q2) :=
        ((List.reverse_perm _).append_left _).append_right _
    _ = l := by
        rw [take_append_pySlice l _ _ hmm, List.take_append_drop]

theorem two_opt_eq_swap (l : List Nat) (p1 p2 : Nat) :
    two_opt_mutation l p1 p2 = swap_mutation l ((p1 + 1) % l.length) p2 := rfl

theorem two_opt_mutation_perm (l : List Nat) (p1 p2 : Nat) (h2 : p2 < l.length) :
    two_opt_mutation l p1 p2 ~ l := by
  rw [two_opt_eq_swap]
  exact swap_mutation_perm l _ _ (Nat.mod_lt _ (by omega)) h2

theorem mutate_random_eq (rand p1 p2 : Nat) (l : List Nat) :
    mutate "random" rand p1 p2 l =
      .ok (if rand = 0 then swap_mutation l p1 p2
        else if rand = 1 then inversion_mutation l p1 p2
        else if rand = 2 then two_opt_mutation l p1 p2
        else l) := by
  unfold mutate
  rw [if_neg (by decide), if_neg (by decide), if_neg (by decide), if_pos rfl]
  split_ifs <;> rfl

theorem getD_set_self {α : Type} (l : List α) (i : Nat) (x d : α)
    (h : i < l.length) : (l.set i x).getD i d = x := by
  have h' : i < (l.set i x).length := by simpa using h
  rw [List.getD_eq_getElem _ _ h', List.getElem_set_self]

theorem getD_set_of_ne {α : Type} (l : List α) (i j : Nat) (x d : α)
    (h : j < l.length) (hne : i ≠ j) : (l.set i x).getD j d = l.getD j d := by
  have h' : j < (l.set i x).length := by simpa using h
  rw [List.getD_eq_getElem _ _ h', List.getElem_set_ne hne]
  exact (List.getD_eq_getElem _ _ h).symm

theorem getGeneCounterpartFuel_congr :
    ∀ (fuel₁ gene : Nat) (mappings : List (Nat × Nat)) (fuel₂ : Nat),
      mappings.length ≤ fuel₁ → mappings.length ≤ fuel₂ →
      getGeneCounterpartFuel fuel₁ gene mappings
        = getGeneCounterpartFuel fuel₂ gene mappings := by
  intro fuel₁
  induction fuel₁ with
  | zero =>
    intro gene mappings fuel₂ h1 _
    have hnil : mappings = [] := List.eq_nil_of_length_eq_zero (Nat.le_zero.mp h1)
    subst hnil
    cases fuel₂ <;> simp [getGeneCounterpartFuel]
  | succ f ih =>
    intro gene mappings fuel₂ h1 h2
    cases fuel₂ with
    | zero =>
      have hnil : mappings = [] := List.eq_nil_of_length_eq_zero (Nat.le_zero.mp h2)
      subst hnil
      simp [getGeneCounterpartFuel]
    | succ f2 =>
      simp only [getGeneCounterpartFuel]
      cases hf : mappings.find? (fun mv => gene == mv.1 || gene == mv.2) with
      | none => rfl
      | some mv =>
        have hmem : mv ∈ mappings := List.mem_of_find?_eq_some hf
        have hpos : 0 < mappings.length := List.length_pos_of_mem hmem
        have hlen : (mappings.erase mv).length = mappings.length - 1 :=
          List.length_erase_of_mem hmem
        exact ih _ _ f2 (by omega) (by omega)

/-- Claim C3 counterexample: with chromosome `[10,11,12,13]` and drawn
positions `p1 = 0`, `p2 = 2` (distinct, in range, n = 4) the code swaps
positions `(p1+1) % n = 1` and `p2 = 2`, producing `[10,12,11,13]`,
whereas the claim's prescription (swap the successor positions `s1 = 1`
and `s2 = 3`) would produce `[10,13,12,11]`. -/
theorem C3_counterexample :
    two_opt_mutation [10, 11, 12, 13] 0 2 = [10, 12, 11, 13] ∧
    specTwoOpt [10, 11, 12, 13] 0 2 = [10, 13, 12, 11] ∧
    two_opt_mutation [10, 11, 12, 13] 0 2 ≠ specTwoOpt [10, 11, 12, 13] 0 2 := by
  refine ⟨rfl, rfl, by decide⟩

/-- Claim C3 (amended): for a chromosome of length `n ≥ 2` and two distinct
drawn positions `p1, p2 < n`, the edge-exchange mutation swaps the cities
at positions `s1 = (p1+1) mod n` and `p2` (not `(p2+1) mod n`); all other
positions are unchanged. -/
theorem C3_amended (l : List Nat) (p1 p2 : Nat) (h1 : p1 < l.length)
    (h2 : p2 < l.length) (hne : p1 ≠ p2) :
    (two_opt_mutation l p1 p2).length = l.length ∧
    (two_opt_mutation l p1 p2).getD ((p1 + 1) % l.length) 0 = l.getD p2 0 ∧
    (two_opt_mutation l p1 p2).getD p2 0 = l.getD ((p1 + 1) % l.length) 0 ∧
    ∀ j, j < l.length → j ≠ (p1 + 1) % l.length → j ≠ p2 →
      (two_opt_mutation l p1 p2).getD j 0 = l.getD j 0 := by
  have hn : 0 < l.length := by omega
  have hs1 : (p1 + 1) % l.length < l.length := Nat.mod_lt _ hn
  rw [two_opt_eq_swap]
  unfold swap_mutation
  set s1 := (p1 + 1) % l.length with hs1def
  refine ⟨by simp, ?_, ?_, ?_⟩
  · by_cases hsp : s1 = p2
    · rw [← hsp, getD_set_self _ _ _ _ (by simpa using hs1), hsp]
    · rw [getD_set_of_ne _ _ _ _ _ (by simpa using hs1) (Ne.symm hsp),
        getD_set_self _ _ _ _ hs1]
  · rw [getD_set_self _ _ _ _ (by simpa using h2)]
  · intro j hj hjs hjp
    rw [getD_set_of_ne _ _ _ _ _ (by simpa using hj) (Ne.symm hjp),
      getD_set_of_ne _ _ _ _ _ hj (Ne.symm hjs)]

/-- Claim C3 (amended) witness at chromosome `[10,11,12,13]`, `p1 = 0`,
`p2 = 2`. -/
theorem C3_amended_witness :
    (two_opt_mutation [10, 11, 12, 13] 0 2).length = 4 ∧
    (two_opt_mutation [10, 11, 12, 13] 0 2).getD 1 0 = 12 ∧
    (two_opt_mutation [10, 11, 12, 13] 0 2).getD 2 0 = 11 ∧
    (two_opt_mutation [10, 11, 12, 13] 0 2).getD 0 0 = 10 := by
  obtain ⟨hl, ha, hb, hrest⟩ :=
    C3_amended [10, 11, 12, 13] 0 2 (by decide) (by decide) (by decide)
  exact ⟨hl, by simpa using ha, by simpa using hb,
    by simpa using hrest 0 (by decide) (by decide) (by decide)⟩

/-- Claim C4 counterexample: `rand = 3` is a possible value of
`random.randrange(4)`, and with it `mutate('random')` applies no mutation
at all — the chromosome `[0,1,2,3]` comes back unchanged even though each
of the three mutations at the drawn points `(0, 2)` would have changed
it. -/
theorem C4_counterexample :
    mutate "random" 3 0 2 [0, 1, 2, 3] = Except.ok [0, 1, 2, 3] ∧
    swap_mutation [0, 1, 2, 3] 0 2 ≠ [0, 1, 2, 3] ∧
    inversion_mutation [0, 1, 2, 3] 0 2 ≠ [0, 1, 2, 3] ∧
    two_opt_mutation [0, 1, 2, 3] 0 2 ≠ [0, 1, 2, 3] := by
  refine ⟨rfl, by decide, by decide, by decide⟩

/-- Claim C4 (amended): `mutate('random')` draws `rand` uniformly from
`{0,1,2,3}` (`random.randrange(4)`); values `0`, `1`, `2` apply the swap,
inversion and edge-exchange mutations respectively (probability 1/4 each),
and value `3` applies no mutation, returning the chromosome unchanged.
It never recurses into `"random"` itself. -/
theorem C4_amended (rand p1 p2 : Nat) (l : List Nat) (hr : rand < 4) :
    mutate "random" rand p1 p2 l =
      .ok (if rand = 0 then swap_mutation l p1 p2
        else if rand = 1 then inversion_mutation l p1 p2
        else if rand = 2 then two_opt_mutation l p1 p2
        else l) :=
  mutate_random_eq rand p1 p2 l

/-- Claim C4 (amended) witness at `rand = 3`, chromosome `[0,1,2,3]`. -/
theorem C4_amended_witness :
    (3 : Nat) < 4 ∧ mutate "random" 3 0 2 [0, 1, 2, 3] = .ok [0, 1, 2, 3] :=
  ⟨by decide, C4_amended 3 0 2 [0, 1, 2, 3] (by decide)⟩

/-- Claim C5 counterexample: with parents `[1,2,3,4,5]`, `[5,4,3,2,1]` and
cut points `(1,3)`, the code's order crossover produces
`child1 = [2,4,3,5,1]` — the remaining genes `5,1,2` (scanned from
parent 1 at index 3, wrapping, skipping duplicates) are written starting
at *position 3*, wrapping, not left-to-right — and not the claim's
expected `[5,4,3,1,2]`. -/
theorem C5_counterexample :
    (order_crossover 1 3 [1, 2, 3, 4, 5] [5, 4, 3, 2, 1]).1 =
      [some 2, some 4, some 3, some 5, some 1] ∧
    (order_crossover 1 3 [1, 2, 3, 4, 5] [5, 4, 3, 2, 1]).1 ≠
      [some 5, some 4, some 3, some 1, some 2] := by
  refine ⟨by decide, by decide⟩

/-- Claim C5 (amended): with parents `[1,2,3,4,5]` and `[5,4,3,2,1]` and
cut points `(1,3)`, child 1 inherits parent 2's segment `[4,3]` at
positions 1–2, and the remaining genes — obtained by scanning parent 1
from index 3 wrapping and skipping duplicates — fill the empty slots
starting at index 3 and wrapping, giving `child1 = [2,4,3,5,1]`.  Both
children are also computed in full. -/
theorem C5_amended :
    order_crossover 1 3 [1, 2, 3, 4, 5] [5, 4, 3, 2, 1] =
      ([some 2, some 4, some 3, some 5, some 1],
       [some 4, some 2, some 3, some 1, some 5]) := by
  decide

/-- Claim C9: at the failing input (an unsupported kind string), `mutate`
does raise (`Exception('Invalid mutation type')`, before touching the
chromosome), but `crossover` falls through its `if/elif` chain and
silently returns `None` (`.ok none`) instead of raising the specified
error — exactly the latent defect the spec flags in §7/§9. -/
theorem C9_dispatch :
    mutate "bad-kind" 0 0 1 [0, 1, 2, 3] = .error "Invalid mutation type" ∧
    crossover "bad-kind" 1 3 [0, 1, 2, 3] [3, 2, 1, 0] = .ok none ∧
    ∀ e, crossover "bad-kind" 1 3 [0, 1, 2, 3] [3, 2, 1, 0] ≠ .error e := by
  refine ⟨rfl, rfl, fun e h => ?_⟩
  rw [show crossover "bad-kind" 1 3 [0, 1, 2, 3] [3, 2, 1, 0] = .ok none
    from rfl] at h
  exact Except.noConfusion h

/-- Claim C10: the PMX counterpart resolution terminates — every
recursive call removes one pair from the mapping list, so the recursion
depth is bounded by the length of the mapping list: running the fuelled
recursion with any fuel at least `mappings.length` yields the same result
as `get_gene_counterpart` (which uses exactly `mappings.length`), making
the resolution a total function of `(gene, mappings)`. -/
theorem C10_counterpart_total (fuel gene : Nat) (mappings : List (Nat × Nat))
    (h : mappings.length ≤ fuel) :
    getGeneCounterpartFuel fuel gene mappings = get_gene_counterpart gene mappings :=
  getGeneCounterpartFuel_congr fuel gene mappings mappings.length h (Nat.le_refl _)

/-- Claim C10 witness: fuel 5 on a 2-pair mapping list. -/
theorem C10_counterpart_total_witness :
    [(2, 3), (3, 4)].length ≤ 5 ∧
    getGeneCounterpartFuel 5 2 [(2, 3), (3, 4)] = get_gene_counterpart 2 [(2, 3), (3, 4)] :=
  ⟨by decide, C10_counterpart_total 5 2 [(2, 3), (3, 4)] (by decide)⟩

section Population

variable {G : Type} {β : Type} [LinearOrder β]

/-- `Population.__sort_members`: `sorted(self.members, key=get_fitness)` —
an ascending stable sort by fitness.  The fitness values (Python floats)
are modelled by the key function `fit` into an arbitrary linear order. -/
def sort_members (fit : G → β) (members : List G) : List G :=
  List.insertionSort (fun a b => fit a ≤ fit b) members

/-- `Population.__top_k_selection(n, k)`: sort ascending, keep the
trailing `k` members (`members[-k:]`), then draw the parents
(`random.choices(top_k, k=n)`), modelled by the explicit list `choices`
of drawn indices into the top-k pool. -/
def top_k_selection (fit : G → β) (members : List G) (dflt : G)
    (choices : List Nat) (k : Nat) : List G :=
  let sorted := sort_members fit members
  let topk := pyLastSlice sorted k
  choices.map (fun j => topk.getD j dflt)

/-- The reproduction loop of `generate_next_generation`: consecutive
parents (`parents[i]`, `parents[i+1]`) are crossed over into two
children, each mutated exactly once, and both appended in order.  An odd
number of parents makes Python raise `IndexError` on the last
iteration.  Crossover and mutation — with their kind strings and random
draws already fixed — are abstract functions of the pair/child index. -/
def reproduction_loop (cross : Nat → G → G → G × G) (mutOp : Nat → G → G) :
    Nat → List G → Except String (List G)
  | _, [] => .ok []
  | _, [_] => .error "IndexError"
  | i, p1 :: p2 :: rest =>
    let c := cross i p1 p2
    match reproduction_loop cross mutOp (i + 1) rest with
    | .error e => .error e
    | .ok rest' => .ok (mutOp (2 * i) c.1 :: mutOp (2 * i + 1) c.2 :: rest')

/-- `Population.generate_next_generation`.  The invariant
`len(self.members) = self.size` holds throughout a run, so the
population size is `members.length`; `parents_n = size - ELITISM` is
reflected by the hypothesis `choices.length = members.length - elitism`
of the theorems below.  Returns the new member list together with the
returned genome `sorted_members[-1]` (`IndexError` on an empty
population, as in Python). -/
def generate_next_generation (elitism k : Nat) (fit : G → β)
    (cross : Nat → G → G → G × G) (mutOp : Nat → G → G) (dflt : G)
    (choices : List Nat) (members : List G) : Except String (List G × G) :=
  match reproduction_loop cross mutOp 0
      (top_k_selection fit members dflt choices k) with
  | .error e => .error e
  | .ok children =>
    match (sort_members fit members).getLast? with
    | none => .error "IndexError"
    | some best =>
      .ok (children ++ pyLastSlice (sort_members fit members) elitism, best)

theorem sort_members_perm (fit : G → β) (members : List G) :
    sort_members fit members ~ members :=
  List.perm_insertionSort _ _

theorem sort_members_sorted (fit : G → β) (members : List G) :
    List.Sorted (fun a b => fit a ≤ fit b) (sort_members fit members) := by
  haveI : IsTotal G (fun a b => fit a ≤ fit b) := ⟨fun a b => le_total _ _⟩
  haveI : IsTrans G (fun a b => fit a ≤ fit b) := ⟨fun _ _ _ h h' => le_trans h h'⟩
  exact List.sorted_insertionSort _ _

theorem reproduction_loop_ok (cross : Nat → G → G → G × G)
    (mutOp : Nat → G → G) :
    ∀ (parents : List G) (i : Nat), parents.length % 2 = 0 →
      ∃ cs, reproduction_loop cross mutOp i parents = .ok cs ∧
        cs.length = parents.length
  | [], _, _ => ⟨[], rfl, rfl⟩
  | [_], _, h => by simp at h
  | a :: b :: rest, i, h => by
    obtain ⟨cs, hcs, hlen⟩ :=
      reproduction_loop_ok cross mutOp rest (i + 1) (by
        simp only [List.length_cons] at h
        omega)
    refine ⟨mutOp (2 * i) (cross i a b).1 :: mutOp (2 * i + 1) (cross i a b).2 :: cs,
      ?_, ?_⟩
    · simp only [reproduction_loop, hcs]
    · simp [hlen]

theorem sorted_getLast_max (fit : G → β) (members : List G) (best : G)
    (h : (sort_members fit members).getLast? = some best) :
    best ∈ members ∧ ∀ m ∈ members, fit m ≤ fit best := by
  set L := sort_members fit members with hL
  have hperm : L ~ members := sort_members_perm fit members
  have hsort : List.Sorted (fun a b => fit a ≤ fit b) L :=
    sort_members_sorted fit members
  have hne : L ≠ [] := by
    intro hnil
    rw [hnil] at h
    simp at h
  have hbest : L.getLast hne = best := by
    have := List.getLast?_eq_getLast L hne
    rw [this] at h
    exact (Option.some.injEq _ _).mp h
  have hdecomp : L.dropLast ++ [best] = L := by
    rw [← hbest]
    exact List.dropLast_concat_getLast hne
  constructor
  · exact hperm.mem_iff.mp (by rw [← hbest]; exact List.getLast_mem hne)
  · intro m hm
    have hmL : m ∈ L := hperm.mem_iff.mpr hm
    rw [← hdecomp] at hmL
    rcases List.mem_append.mp hmL with hd | hl
    · have hp : List.Pairwise (fun a b => fit a ≤ fit b) (L.dropLast ++ [best]) := by
        rw [hdecomp]; exact hsort
      exact (List.pairwise_append.mp hp).2.2 m hd best (by simp)
    · simp only [List.mem_singleton] at hl
      subst hl
      exact le_refl _

/-- Claim C2: for every population with at least one member (every
successful call), `generate_next_generation` returns the highest-fitness
member of the population *as it was before the replacement*: the returned
genome belongs to the old member list and its fitness bounds every old
member's fitness.  (By construction, line 390 of the source sorts
`self.members` before `self.members` is reassigned, and line 395 returns
the last element of that sorted copy.) -/
theorem C2_returns_prestep_fittest (elitism k : Nat) (fit : G → β)
    (cross : Nat → G → G → G × G) (mutOp : Nat → G → G) (dflt : G)
    (choices : List Nat) (members nm : List G) (best : G)
    (h : generate_next_generation elitism k fit cross mutOp dflt choices members
      = .ok (nm, best)) :
    best ∈ members ∧ ∀ m ∈ members, fit m ≤ fit best := by
  unfold generate_next_generation at h
  cases hrep : reproduction_loop cross mutOp 0
      (top_k_selection fit members dflt choices k) with
  | error e => rw [hrep] at h; exact Except.noConfusion h
  | ok children =>
    rw [hrep] at h
    cases hlast : (sort_members fit members).getLast? with
    | none => rw [hlast] at h; exact Except.noConfusion h
    | some b =>
      rw [hlast] at h
      simp only [Except.ok.injEq, Prod.mk.injEq] at h
      obtain ⟨-, hbest⟩ := h
      subst hbest
      exact sorted_getLast_max fit members b hlast

/-- Claim C2 witness: population `[5, 3]` with identity fitness, elitism 2
(no reproduction), returns 5. -/
theorem C2_witness :
    (5 : Nat) ∈ ([5, 3] : List Nat) ∧ ∀ m ∈ ([5, 3] : List Nat), m ≤ 5 :=
  C2_returns_prestep_fittest 2 1 (fun n : Nat => n) (fun _ a b => (a, b))
    (fun _ g => g) 0 [] [5, 3] [3, 5] 5 rfl

/-- Claim C6 counterexample: elitism `E = 0` satisfies the claim's
validity conditions (`E ≤ size` and `size - E` even), but Python's
`sorted_members[-0:]` is the *whole* member list, so a population of size
2 produces 2 children plus all 2 old members: 4 members, not 2. -/
theorem C6_counterexample :
    generate_next_generation 0 1 (fun n : Nat => n) (fun _ a b => (a, b))
        (fun _ g => g) 0 [0, 0] [0, 1] = .ok ([1, 1, 0, 1], 1) ∧
    (0 ≤ 2 ∧ (2 - 0) % 2 = 0) ∧
    ([1, 1, 0, 1] : List Nat).length ≠ ([0, 1] : List Nat).length := by
  refine ⟨rfl, ⟨by decide, by decide⟩, by decide⟩

/-- Claim C6 (amended): for every configuration with `1 ≤ E ≤ size` and
`size - E` even (and the invariant `len(members) = size`, with
`random.choices` drawing exactly `size - E` parents), the call succeeds
and the new member count equals the old population size. -/
theorem C6_amended (elitism k : Nat) (fit : G → β)
    (cross : Nat → G → G → G × G) (mutOp : Nat → G → G) (dflt : G)
    (choices : List Nat) (members : List G)
    (hE1 : 1 ≤ elitism) (hE : elitism ≤ members.length)
    (heven : (members.length - elitism) % 2 = 0)
    (hch : choices.length = members.length - elitism) :
    ∃ nm best,
      generate_next_generation elitism k fit cross mutOp dflt choices members
        = .ok (nm, best) ∧ nm.length = members.length := by
  have hplen : (top_k_selection fit members dflt choices k).length
      = members.length - elitism := by
    simp [top_k_selection, hch]
  obtain ⟨children, hrep, hclen⟩ :=
    reproduction_loop_ok cross mutOp
      (top_k_selection fit members dflt choices k) 0 (by rw [hplen]; exact heven)
  set L := sort_members fit members with hLdef
  have hLlen : L.length = members.length := (sort_members_perm fit members).length_eq
  have hLne : L ≠ [] := by
    intro hnil
    rw [hnil] at hLlen
    simp at hLlen
    omega
  have hlast : L.getLast? = some (L.getLast hLne) := List.getLast?_eq_getLast L hLne
  refine ⟨children ++ pyLastSlice L elitism, L.getLast hLne, ?_, ?_⟩
  · unfold generate_next_generation
    rw [hrep, ← hLdef, hlast]
  · have helen : (pyLastSlice L elitism).length = elitism := by
      unfold pyLastSlice
      rw [if_neg (by omega)]
      simp only [List.length_drop]
      omega
    simp only [List.length_append, hclen, hplen, helen]
    omega

/-- Claim C6 (amended) witness: size 2, elitism 2. -/
theorem C6_amended_witness :
    ∃ nm best,
      generate_next_generation 2 1 (fun n : Nat => n) (fun _ a b => (a, b))
          (fun _ g => g) 0 [] [5, 3] = .ok (nm, best) ∧
        nm.length = ([5, 3] : List Nat).length :=
  C6_amended 2 1 (fun n : Nat => n) (fun _ a b => (a, b)) (fun _ g => g) 0
    [] [5, 3] (by decide) (by decide) (by decide) (by decide)

/-- Claim C7: after every successful `generate_next_generation` call with
`1 ≤ E ≤ len(members)`, the trailing `E` members of the pre-step
fitness-sorted list are appended verbatim (a suffix of the new member
list, untouched by the abstract mutation operator): there are exactly `E`
of them, each is a member of the pre-step population, and each has
fitness at least that of every non-elite member of the sorted list. -/
theorem C7_elites (elitism k : Nat) (fit : G → β)
    (cross : Nat → G → G → G × G) (mutOp : Nat → G → G) (dflt : G)
    (choices : List Nat) (members nm : List G) (best : G)
    (hE1 : 1 ≤ elitism) (hE : elitism ≤ members.length)
    (h : generate_next_generation elitism k fit cross mutOp dflt choices members
      = .ok (nm, best)) :
    pyLastSlice (sort_members fit members) elitism <:+ nm ∧
    (pyLastSlice (sort_members fit members) elitism).length = elitism ∧
    (∀ g ∈ pyLastSlice (sort_members fit members) elitism, g ∈ members) ∧
    ∀ x ∈ (sort_members fit members).take
        ((sort_members fit members).length - elitism),
      ∀ y ∈ pyLastSlice (sort_members fit members) elitism, fit x ≤ fit y := by
  set L := sort_members fit members with hLdef
  have hperm : L ~ members := sort_members_perm fit members
  have hLlen : L.length = members.length := hperm.length_eq
  have hslice : pyLastSlice L elitism = L.drop (L.length - elitism) := by
    unfold pyLastSlice
    rw [if_neg (by omega)]
  constructor
  · unfold generate_next_generation at h
    cases hrep : reproduction_loop cross mutOp 0
        (top_k_selection fit members dflt choices k) with
    | error e => rw [hrep] at h; exact Except.noConfusion h
    | ok children =>
      rw [hrep] at h
      cases hlast : L.getLast? with
      | none => rw [← hLdef, hlast] at h; exact Except.noConfusion h
      | some b =>
        rw [← hLdef, hlast] at h
        simp only [Except.ok.injEq, Prod.mk.injEq] at h
        obtain ⟨hnm, -⟩ := h
        exact ⟨children, hnm⟩
  refine ⟨?_, ?_, ?_⟩
  · rw [hslice]
    simp only [List.length_drop]
    omega
  · intro g hg
    rw [hslice] at hg
    exact hperm.mem_iff.mp (List.drop_subset _ _ hg)
  · intro x hx y hy
    rw [hslice] at hy
    have hsort : List.Pairwise (fun a b => fit a ≤ fit b)
        (L.take (L.length - elitism) ++ L.drop (L.length - elitism)) := by
      rw [List.take_append_drop]
      exact sort_members_sorted fit members
    exact (List.pairwise_append.mp hsort).2.2 x hx y hy

/-- Claim C7 witness: population `[5, 3, 4]`, elitism 1. -/
theorem C7_witness :
    pyLastSlice (sort_members (fun n : Nat => n) [5, 3, 4]) 1 <:+ [5, 5, 5] ∧
    (pyLastSlice (sort_members (fun n : Nat => n) [5, 3, 4]) 1).length = 1 ∧
    (∀ g ∈ pyLastSlice (sort_members (fun n : Nat => n) [5, 3, 4]) 1,
      g ∈ ([5, 3, 4] : List Nat)) ∧
    ∀ x ∈ (sort_members (fun n : Nat => n) [5, 3, 4]).take
        ((sort_members (fun n : Nat => n) [5, 3, 4]).length - 1),
      ∀ y ∈ pyLastSlice (sort_members (fun n : Nat => n) [5, 3, 4]) 1, x ≤ y :=
  C7_elites 1 1 (fun n : Nat => n) (fun _ a b => (a, b)) (fun _ g => g) 0
    [0, 0] [5, 3, 4] [5, 5, 5] 5 (by decide) (by decide) rfl

end Population

section Fitness

/-- `math.dist` on 2D city positions: the Euclidean distance, with the
Python floats modelled over the reals. -/
noncomputable def mathDist (a b : ℝ × ℝ) : ℝ :=
  Real.sqrt ((a.1 - b.1) ^ 2 + (a.2 - b.2) ^ 2)

/-- The loop of `Genome.get_fitness`: sum `distance(chromosome[i],
chromosome[(i+1) % n])` over `i < n`. -/
noncomputable def tour_length (l : List (ℝ × ℝ)) : ℝ :=
  ∑ i ∈ Finset.range l.length,
    mathDist (l.getD i (0, 0)) (l.getD ((i + 1) % l.length) (0, 0))

/-- `Genome.get_fitness`: the reciprocal of the cyclic tour length. -/
noncomputable def get_fitness (l : List (ℝ × ℝ)) : ℝ := 1 / tour_length l

theorem mathDist_symm (a b : ℝ × ℝ) : mathDist a b = mathDist b a := by
  unfold mathDist
  ring_nf

theorem zipWith_sum_eq (f : ℝ × ℝ → ℝ × ℝ → ℝ) :
    ∀ (l1 l2 : List (ℝ × ℝ)), l1.length = l2.length →
      (List.zipWith f l1 l2).sum
        = ∑ i ∈ Finset.range l1.length, f (l1.getD i (0, 0)) (l2.getD i (0, 0))
  | [], [], _ => by simp
  | [], _ :: _, h => by simp at h
  | _ :: _, [], h => by simp at h
  | a :: t1, b :: t2, h => by
    have h' : t1.length = t2.length := by simpa using h
    simp only [List.zipWith_cons_cons, List.sum_cons, List.length_cons]
    rw [Finset.sum_range_succ']
    simp only [List.getD_cons_succ, List.getD_cons_zero]
    rw [zipWith_sum_eq f t1 t2 h']
    ring

theorem tour_length_eq_zip (l : List (ℝ × ℝ)) :
    tour_length l = (List.zipWith mathDist l (l.rotate 1)).sum := by
  rw [zipWith_sum_eq mathDist l (l.rotate 1) (by simp)]
  unfold tour_length
  apply Finset.sum_congr rfl
  intro i hi
  have hi' : i < l.length := Finset.mem_range.mp hi
  have h1 : i < (l.rotate 1).length := by simpa using hi'
  have hmod : (i + 1) % l.length < l.length := Nat.mod_lt _ (by omega)
  congr 1
  rw [List.getD_eq_getElem _ _ h1, List.getElem_rotate,
    List.getD_eq_getElem _ _ hmod]

theorem tour_length_rotate (l : List (ℝ × ℝ)) (k : Nat) :
    tour_length (l.rotate k) = tour_length l := by
  rw [tour_length_eq_zip, tour_length_eq_zip]
  have h1 : (l.rotate k).rotate 1 = (l.rotate 1).rotate k := by
    rw [List.rotate_rotate, List.rotate_rotate, Nat.add_comm]
  rw [h1, ← List.zipWith_rotate_distrib mathDist l (l.rotate 1) k (by simp)]
  exact List.Perm.sum_eq (List.rotate_perm _ k)

theorem tour_length_reverse (l : List (ℝ × ℝ)) :
    tour_length l.reverse = tour_length l := by
  rcases Nat.eq_zero_or_pos l.length with h0 | hpos
  · have : l = [] := List.eq_nil_of_length_eq_zero h0
    subst this
    simp
  · have hn1 : (l.length - 1) % l.length = l.length - 1 :=
      Nat.mod_eq_of_lt (by omega)
    have hrev : (l.rotate (l.length - 1)).reverse = l.reverse.rotate 1 := by
      rw [List.reverse_rotate, hn1]
      congr 1
      omega
    rw [tour_length_eq_zip, ← hrev,
      ← List.reverse_zipWith (by simp), List.sum_reverse,
      List.zipWith_comm_of_comm mathDist mathDist_symm]
    have hl : (l.rotate (l.length - 1)).rotate 1 = l := by
      rw [List.rotate_rotate]
      have h1 : l.length - 1 + 1 = l.length := by omega
      rw [h1, List.rotate_length]
    calc (List.zipWith mathDist (l.rotate (l.length - 1)) l).sum
        = (List.zipWith mathDist (l.rotate (l.length - 1))
            ((l.rotate (l.length - 1)).rotate 1)).sum := by rw [hl]
      _ = tour_length (l.rotate (l.length - 1)) :=
          (tour_length_eq_zip _).symm
      _ = tour_length l := tour_length_rotate l _

/-- Claim C8: for every genome with nonzero tour length, the fitness
(`1 / tour length`) is invariant under every cyclic rotation of the
chromosome and under full reversal of the chromosome. -/
theorem C8_fitness_invariant (l : List (ℝ × ℝ)) (h : tour_length l ≠ 0) :
    (∀ k, get_fitness (l.rotate k) = get_fitness l) ∧
    get_fitness l.reverse = get_fitness l := by
  refine ⟨fun k => ?_, ?_⟩ <;> unfold get_fitness
  · rw [tour_length_rotate]
  · rw [tour_length_reverse]

/-- Claim C8 witness: the two-city tour `(0,0), (1,0)` has tour length
`2 ≠ 0`, and its fitness is unchanged by rotation by 1 and by reversal. -/
theorem C8_witness :
    tour_length [((0 : ℝ), (0 : ℝ)), (1, 0)] ≠ 0 ∧
    get_fitness (List.rotate [((0 : ℝ), (0 : ℝ)), (1, 0)] 1)
      = get_fitness [((0 : ℝ), (0 : ℝ)), (1, 0)] ∧
    get_fitness (List.reverse [((0 : ℝ), (0 : ℝ)), (1, 0)])
      = get_fitness [((0 : ℝ), (0 : ℝ)), (1, 0)] := by
  have h : tour_length [((0 : ℝ), (0 : ℝ)), (1, 0)] ≠ 0 := by
    unfold tour_length mathDist
    norm_num [Finset.sum_range_succ]
  exact ⟨h, (C8_fitness_invariant _ h).1 1, (C8_fitness_invariant _ h).2⟩

end Fitness

section PermutationValidity

/-- Validity of a (fully built) option chromosome: every slot holds a
city, and the underlying gene list is a permutation of the city set. -/
def IsValidOpt (cities : List Nat) (c : List (Option Nat)) : Prop :=
  ∃ s, c = s.map some ∧ s ~ cities

theorem mod_add_right_cancel {n i j k : Nat} (hi : i < n) (hj : j < n)
    (h : (i + k) % n = (j + k) % n) : i = j := by
  have h' : i % n = j % n := Nat.ModEq.add_right_cancel' k h
  rwa [Nat.mod_eq_of_lt hi, Nat.mod_eq_of_lt hj] at h'

theorem rotate_set (l : List α) (k i : Nat) (x : α) (hi : i < l.length) :
    (l.rotate k).set i x = (l.set ((i + k) % l.length) x).rotate k := by
  have hn : 0 < l.length := by omega
  apply List.ext_getElem
  · simp
  · intro j h1 h2
    simp only [List.length_set, List.length_rotate] at h1 h2
    have hj : j < l.length := h1
    have hjk : (j + k) % l.length < l.length := Nat.mod_lt _ hn
    have hik : (i + k) % l.length < l.length := Nat.mod_lt _ hn
    rw [List.getElem_set, List.getElem_rotate, List.getElem_rotate,
      List.getElem_set]
    simp only [List.length_set]
    by_cases hij : i = j
    · subst hij
      simp
    · rw [if_neg hij, if_neg (fun heq => hij (mod_add_right_cancel hi hj heq))]

theorem swappedParent_eq_rotate (l : List Nat) (k : Nat) :
    swappedParent l k = l.rotate k := by
  apply List.ext_getElem
  · simp [swappedParent]
  · intro i h1 h2
    have hn : 0 < l.length := by
      simp only [swappedParent, List.length_map, List.length_range] at h1
      omega
    simp only [swappedParent, List.getElem_map, List.getElem_range,
      List.getElem_rotate]
    have hm : (k + i) % l.length < l.length := Nat.mod_lt _ hn
    rw [List.getD_eq_getElem _ _ hm]
    congr 2
    omega

theorem initChild_eq (n p1 p2 : Nat) (seg : List Nat) (h1 : p1 ≤ n) :
    initChild n p1 p2 seg
      = List.replicate p1 (none : Option Nat) ++ seg.map some
        ++ List.replicate (n - p2) none := by
  unfold initChild
  rw [List.take_replicate, List.drop_replicate, Nat.min_eq_left h1]

theorem initChild_length (n p1 p2 : Nat) (seg : List Nat)
    (hp : p1 ≤ p2) (h2 : p2 ≤ n) (hseg : seg.length = p2 - p1) :
    (initChild n p1 p2 seg).length = n := by
  rw [initChild_eq n p1 p2 seg (by omega)]
  simp only [List.length_append, List.length_replicate, List.length_map, hseg]
  omega

theorem initChild_rotate (n p1 p2 : Nat) (seg : List Nat)
    (hp : p1 ≤ p2) (h2 : p2 ≤ n) (hseg : seg.length = p2 - p1) :
    (initChild n p1 p2 seg).rotate p2
      = List.replicate (n - (p2 - p1)) (none : Option Nat) ++ seg.map some := by
  have hlen : (initChild n p1 p2 seg).length = n :=
    initChild_length n p1 p2 seg hp h2 hseg
  rw [List.rotate_eq_drop_append_take (by omega), initChild_eq n p1 p2 seg (by omega)]
  have hab : (List.replicate p1 (none : Option Nat) ++ seg.map some).length = p2 := by
    simp [hseg]; omega
  rw [List.drop_left' hab, List.take_left' hab]
  have hrep : (List.replicate n (none : Option Nat)).drop p2
      = List.replicate (n - p2) none := List.drop_replicate _ _ _
  calc List.replicate (n - p2) (none : Option Nat)
        ++ (List.replicate p1 none ++ seg.map some)
      = (List.replicate (n - p2) (none : Option Nat)
          ++ List.replicate p1 none) ++ seg.map some := by
        rw [List.append_assoc]
    _ = List.replicate (n - (p2 - p1)) (none : Option Nat) ++ seg.map some := by
        rw [← List.replicate_add]
        congr 2
        omega

theorem eq_map_filterMap_of_no_none :
    ∀ (c : List (Option Nat)), (none ∉ c) → c = (c.filterMap id).map some
  | [], _ => rfl
  | some a :: t, h => by
    have ht : (none : Option Nat) ∉ t := fun hn => h (List.mem_cons_of_mem _ hn)
    have := eq_map_filterMap_of_no_none t ht
    simp only [List.filterMap_cons, id_eq, List.map_cons]
    exact congrArg (List.cons (some a)) this
  | none :: t, h => absurd (List.mem_cons_self _ _) h

theorem filter_not_mem_append_perm (l s : List Nat) (hl : l.Nodup)
    (hs : s.Nodup) (hsub : s ⊆ l) :
    l.filter (fun g => decide (g ∉ s)) ++ s ~ l := by
  rw [List.perm_iff_count]
  intro a
  rw [List.count_append]
  by_cases ha : a ∈ s
  · have h0 : (l.filter (fun g => decide (g ∉ s))).count a = 0 := by
      apply List.count_eq_zero_of_not_mem
      intro hmem
      have := List.of_mem_filter hmem
      simp only [decide_eq_true_eq] at this
      exact this ha
    have h1 : s.count a = 1 := List.count_eq_one_of_mem hs ha
    have h2 : l.count a = 1 := List.count_eq_one_of_mem hl (hsub ha)
    omega
  · have h0 : (l.filter (fun g => decide (g ∉ s))).count a = l.count a :=
      List.count_filter (by simpa using ha)
    have h1 : s.count a = 0 := List.count_eq_zero_of_not_mem ha
    omega

theorem length_filter_not_mem (l s : List Nat) (hl : l.Nodup) (hs : s.Nodup)
    (hsub : s ⊆ l) :
    (l.filter (fun g => decide (g ∉ s))).length = l.length - s.length := by
  have h := (filter_not_mem_append_perm l s hl hs hsub).length_eq
  rw [List.length_append] at h
  omega

end PermutationValidity

section OXCorrectness

theorem oxFill_spec :
    ∀ (genes placed seg : List Nat) (chi : List (Option Nat)) (p2 m : Nat),
      chi.length = placed.length + m + seg.length →
      chi.rotate p2 = placed.map some ++ List.replicate m none ++ seg.map some →
      p2 ≤ chi.length →
      (placed ++ genes).Nodup →
      (genes.filter (fun g => decide (g ∉ seg))).length ≤ m →
      (oxFill genes chi (p2 + placed.length)).rotate p2
        = (placed ++ genes.filter (fun g => decide (g ∉ seg))).map some
          ++ List.replicate
              (m - (genes.filter (fun g => decide (g ∉ seg))).length) none
          ++ seg.map some
  | [], placed, seg, chi, p2, m, hlen, hshape, hp2, hnd, hcap => by
    simpa [oxFill] using hshape
  | g :: rest, placed, seg, chi, p2, m, hlen, hshape, hp2, hnd, hcap => by
    have hgplaced : g ∉ placed := by
      intro hgp
      have hd := (List.nodup_append.mp hnd).2.2
      exact hd hgp (List.mem_cons_self g rest)
    have hmemchi : (some g ∈ chi) ↔ (g ∈ placed ∨ g ∈ seg) := by
      constructor
      · intro hmem
        have hrot : some g ∈ chi.rotate p2 := List.mem_rotate.mpr hmem
        rw [hshape] at hrot
        simpa using hrot
      · intro hmem
        have hrot : some g ∈ chi.rotate p2 := by
          rw [hshape]
          rcases hmem with h | h
          · exact List.mem_append_left _
              (List.mem_append_left _ (List.mem_map_of_mem _ h))
          · exact List.mem_append_right _ (List.mem_map_of_mem _ h)
        exact List.mem_rotate.mp hrot
    by_cases hg : g ∈ seg
    · have hcond : some g ∈ chi := hmemchi.mpr (Or.inr hg)
      have hfe : (g :: rest).filter (fun x => decide (x ∉ seg))
          = rest.filter (fun x => decide (x ∉ seg)) :=
        List.filter_cons_of_neg (by simpa using hg)
      rw [show oxFill (g :: rest) chi (p2 + placed.length)
          = oxFill rest chi (p2 + placed.length) by
        simp [oxFill, hcond]]
      rw [hfe] at hcap ⊢
      have hnd' : (placed ++ rest).Nodup :=
        ((List.sublist_cons_self g rest).append_left placed).nodup hnd
      exact oxFill_spec rest placed seg chi p2 m hlen hshape hp2 hnd' hcap
    · have hcond : some g ∉ chi := fun hmem => by
        rcases hmemchi.mp hmem with h | h
        exacts [hgplaced h, hg h]
      have hfpos : (g :: rest).filter (fun x => decide (x ∉ seg))
          = g :: rest.filter (fun x => decide (x ∉ seg)) :=
        List.filter_cons_of_pos (by simpa using hg)
      have hflen : (rest.filter (fun x => decide (x ∉ seg))).length + 1 ≤ m := by
        rw [hfpos] at hcap
        simpa using hcap
      obtain ⟨m', rfl⟩ : ∃ m', m = m' + 1 := ⟨m - 1, by omega⟩
      have hplt : placed.length < chi.length := by omega
      have hrot : (chi.set ((p2 + placed.length) % chi.length) (some g)).rotate p2
          = (chi.rotate p2).set placed.length (some g) := by
        rw [rotate_set chi p2 placed.length (some g) hplt,
          Nat.add_comm placed.length p2]
      have hsetshape : (chi.rotate p2).set placed.length (some g)
          = (placed ++ [g]).map some ++ List.replicate m' none ++ seg.map some := by
        rw [hshape, List.append_assoc,
          List.set_append_right placed.length (some g)
            (le_of_eq (by simp)),
          show placed.length - (placed.map some).length = 0 by simp,
          List.replicate_succ, List.cons_append, List.set_cons_zero]
        simp
      rw [show oxFill (g :: rest) chi (p2 + placed.length)
          = oxFill rest (chi.set ((p2 + placed.length) % chi.length) (some g))
              (p2 + placed.length + 1) by
        simp [oxFill, hcond]]
      have hnd' : ((placed ++ [g]) ++ rest).Nodup := by
        rw [List.append_assoc]
        simpa using hnd
      have hlen' : (chi.set ((p2 + placed.length) % chi.length) (some g)).length
          = (placed ++ [g]).length + m' + seg.length := by
        simp only [List.length_set, List.length_append, List.length_cons,
          List.length_nil]
        omega
      have hshape' : (chi.set ((p2 + placed.length) % chi.length) (some g)).rotate p2
          = (placed ++ [g]).map some ++ List.replicate m' none ++ seg.map some :=
        hrot.trans hsetshape
      have hp2' : p2 ≤ (chi.set ((p2 + placed.length) % chi.length) (some g)).length := by
        simpa using hp2
      have hcap' : (rest.filter (fun x => decide (x ∉ seg))).length ≤ m' := by
        omega
      have IH := oxFill_spec rest (placed ++ [g]) seg
        (chi.set ((p2 + placed.length) % chi.length) (some g)) p2 m'
        hlen' hshape' hp2' hnd' hcap'
      rw [show p2 + placed.length + 1 = p2 + (placed ++ [g]).length by
        simp only [List.length_append, List.length_cons, List.length_nil]
        omega]
      rw [hfpos]
      rw [show placed ++ g :: rest.filter (fun x => decide (x ∉ seg))
          = (placed ++ [g]) ++ rest.filter (fun x => decide (x ∉ seg)) by
        simp]
      rw [show m' + 1 - ((g :: rest.filter (fun x => decide (x ∉ seg))).length)
          = m' - (rest.filter (fun x => decide (x ∉ seg))).length by
        simp only [List.length_cons]
        omega]
      exact IH

theorem oxFill_length : ∀ (genes : List Nat) (chi : List (Option Nat)) (p : Nat),
    (oxFill genes chi p).length = chi.length
  | [], _, _ => rfl
  | g :: rest, chi, p => by
    simp only [oxFill]
    split
    · exact oxFill_length rest chi p
    · rw [oxFill_length]
      simp

theorem ox_child_valid (cities pa pb : List Nat) (p1 p2 : Nat)
    (hnd : cities.Nodup) (ha : pa ~ cities) (hb : pb ~ cities)
    (hp : p1 < p2) (hp2 : p2 < cities.length) :
    IsValidOpt cities
      (orderly_insert pa (initChild pa.length p1 p2 (pySlice pb p1 p2)) p2) := by
  have hpan : pa.length = cities.length := ha.length_eq
  have hpbn : pb.length = cities.length := hb.length_eq
  have hand : pa.Nodup := ha.nodup_iff.mpr hnd
  have hbnd : pb.Nodup := hb.nodup_iff.mpr hnd
  set seg := pySlice pb p1 p2 with hsegdef
  have hsegsl : seg <+ pb := (List.drop_sublist _ _).trans (List.take_sublist _ _)
  have hsegnd : seg.Nodup := hsegsl.nodup hbnd
  have hseglen : seg.length = p2 - p1 := by
    simp only [hsegdef, pySlice, List.length_drop, List.length_take]
    omega
  have hsubpa : seg ⊆ pa := fun x hx =>
    ha.mem_iff.mpr (hb.mem_iff.mp (hsegsl.subset hx))
  have hrotnd : (pa.rotate p2).Nodup := (List.rotate_perm pa p2).nodup_iff.mpr hand
  have hsubrot : seg ⊆ pa.rotate p2 := fun x hx => List.mem_rotate.mpr (hsubpa hx)
  have hchil : (initChild pa.length p1 p2 seg).length = pa.length :=
    initChild_length _ _ _ _ (by omega) (by omega) hseglen
  have hshape0 : (initChild pa.length p1 p2 seg).rotate p2
      = ([] : List Nat).map some
        ++ List.replicate (pa.length - (p2 - p1)) none ++ seg.map some := by
    rw [initChild_rotate _ _ _ _ (by omega) (by omega) hseglen]
    simp
  have hrnodup : (([] : List Nat) ++ pa.rotate p2).Nodup := by
    simpa using hrotnd
  have hfillen : ((pa.rotate p2).filter (fun g => decide (g ∉ seg))).length
      = pa.length - (p2 - p1) := by
    rw [length_filter_not_mem _ _ hrotnd hsegnd hsubrot]
    simp [hseglen]
  have hfin := oxFill_spec (pa.rotate p2) [] seg (initChild pa.length p1 p2 seg)
    p2 (pa.length - (p2 - p1))
    (by rw [hchil]; simp only [List.length_nil, hseglen]; omega)
    hshape0
    (by rw [hchil]; omega)
    hrnodup
    (le_of_eq hfillen)
  simp only [List.length_nil, Nat.add_zero, List.nil_append, hfillen,
    Nat.sub_self, List.replicate_zero, List.append_nil] at hfin
  rw [← List.map_append] at hfin
  have hchild : (orderly_insert pa (initChild pa.length p1 p2 seg) p2).rotate p2
      = (((pa.rotate p2).filter (fun g => decide (g ∉ seg)) ++ seg)).map some := by
    unfold orderly_insert
    rw [swappedParent_eq_rotate]
    exact hfin
  have hsperm : (pa.rotate p2).filter (fun g => decide (g ∉ seg)) ++ seg ~ cities :=
    (filter_not_mem_append_perm (pa.rotate p2) seg hrotnd hsegnd hsubrot).trans
      ((List.rotate_perm pa p2).trans ha)
  set child := orderly_insert pa (initChild pa.length p1 p2 seg) p2 with hchdef
  have hchlen : child.length = pa.length := by
    rw [hchdef]
    unfold orderly_insert
    rw [oxFill_length, hchil]
  have hp2le : p2 ≤ child.length := by
    rw [hchlen, hpan]
    omega
  have hchildeq : child = (child.rotate p2).rotate (child.length - p2) := by
    rw [List.rotate_rotate]
    have : p2 + (child.length - p2) = child.length := by omega
    rw [this, List.rotate_length]
  refine ⟨((pa.rotate p2).filter (fun g => decide (g ∉ seg)) ++ seg).rotate
      (child.length - p2), ?_, ?_⟩
  · rw [List.map_rotate, ← hchild]
    exact hchildeq
  · exact (List.rotate_perm _ _).trans hsperm

theorem order_crossover_valid (cities parent1 parent2 : List Nat) (p1 p2 : Nat)
    (hnd : cities.Nodup) (h1 : parent1 ~ cities) (h2 : parent2 ~ cities)
    (hp : p1 < p2) (hp2 : p2 < cities.length) :
    IsValidOpt cities (order_crossover p1 p2 parent1 parent2).1 ∧
    IsValidOpt cities (order_crossover p1 p2 parent1 parent2).2 := by
  constructor
  · simp only [order_crossover]
    exact ox_child_valid cities parent1 parent2 p1 p2 hnd h1 h2 hp hp2
  · simp only [order_crossover]
    exact ox_child_valid cities parent2 parent1 p1 p2 hnd h2 h1 hp hp2

end OXCorrectness

section CXCorrectness

/-- The index-jump of the cycle-crossover walk: the position, inside
parent 2, of parent 1's gene at position `i`
(`index = parent2.chromosome.index(parent1_gene)`). -/
def cxStep (parent1 parent2 : List Nat) (i : Nat) : Nat :=
  parent2.indexOf (parent1.getD i 0)

variable {cities parent1 parent2 : List Nat}

theorem getD_mem_of_lt (l : List Nat) (i : Nat) (h : i < l.length) :
    l.getD i 0 ∈ l := by
  rw [List.getD_eq_getElem _ _ h]
  exact List.getElem_mem h

theorem cxStep_lt (hnd : cities.Nodup) (h1 : parent1 ~ cities)
    (h2 : parent2 ~ cities) (i : Nat) (hi : i < cities.length) :
    cxStep parent1 parent2 i < cities.length := by
  have hi1 : i < parent1.length := by rw [h1.length_eq]; exact hi
  have hmem : parent1.getD i 0 ∈ parent2 :=
    h2.mem_iff.mpr (h1.mem_iff.mp (getD_mem_of_lt parent1 i hi1))
  have := List.indexOf_lt_length.mpr hmem
  rwa [h2.length_eq] at this

theorem parent2_getD_cxStep (hnd : cities.Nodup) (h1 : parent1 ~ cities)
    (h2 : parent2 ~ cities) (i : Nat) (hi : i < cities.length) :
    parent2.getD (cxStep parent1 parent2 i) 0 = parent1.getD i 0 := by
  have hi1 : i < parent1.length := by rw [h1.length_eq]; exact hi
  have hmem : parent1.getD i 0 ∈ parent2 :=
    h2.mem_iff.mpr (h1.mem_iff.mp (getD_mem_of_lt parent1 i hi1))
  have hlt := List.indexOf_lt_length.mpr hmem
  rw [cxStep, List.getD_eq_getElem _ _ hlt]
  exact List.getElem_indexOf hlt

theorem getD_inj (hnd : cities.Nodup) (h1 : parent1 ~ cities)
    {i j : Nat} (hi : i < cities.length) (hj : j < cities.length)
    (h : parent1.getD i 0 = parent1.getD j 0) : i = j := by
  have hand : parent1.Nodup := h1.nodup_iff.mpr hnd
  have hi1 : i < parent1.length := by rw [h1.length_eq]; exact hi
  have hj1 : j < parent1.length := by rw [h1.length_eq]; exact hj
  rw [List.getD_eq_getElem _ _ hi1, List.getD_eq_getElem _ _ hj1] at h
  exact (List.Nodup.getElem_inj_iff hand).mp h

theorem cxStep_inj (hnd : cities.Nodup) (h1 : parent1 ~ cities)
    (h2 : parent2 ~ cities) {i j : Nat} (hi : i < cities.length)
    (hj : j < cities.length)
    (h : cxStep parent1 parent2 i = cxStep parent1 parent2 j) : i = j := by
  have e1 := parent2_getD_cxStep hnd h1 h2 i hi
  have e2 := parent2_getD_cxStep hnd h1 h2 j hj
  rw [h, e2] at e1
  exact getD_inj hnd h1 hi hj e1.symm

theorem chain'_pred (r : Nat → Nat → Prop) :
    ∀ (l : List Nat) (x h0 : Nat), List.Chain' r l → l.head? = some h0 →
      x ∈ l → x ≠ h0 → ∃ y ∈ l.dropLast, r y x
  | [], x, h0, _, hh, hx, _ => by simp at hx
  | [a], x, h0, _, hh, hx, hne => by
    simp only [List.head?_cons, Option.some.injEq] at hh
    simp only [List.mem_singleton] at hx
    exact absurd (hx.trans hh) hne
  | a :: b :: t, x, h0, hch, hh, hx, hne => by
    simp only [List.head?_cons, Option.some.injEq] at hh
    subst hh
    rcases List.mem_cons.mp hx with rfl | hx'
    · exact absurd rfl hne
    · have hr : r a b := (List.chain'_cons.mp hch).1
      have hch' : List.Chain' r (b :: t) := (List.chain'_cons.mp hch).2
      by_cases hxb : x = b
      · subst hxb
        refine ⟨a, ?_, hr⟩
        simp [List.dropLast_cons₂]
      · obtain ⟨y, hy, hyr⟩ := chain'_pred r (b :: t) x b hch' rfl hx' hxb
        refine ⟨y, ?_, hyr⟩
        rw [List.dropLast_cons₂]
        exact List.mem_cons_of_mem _ hy

theorem chain'_mem_succ (r : Nat → Nat → Prop) :
    ∀ (l : List Nat) (w : Nat), List.Chain' r l → w ∈ l →
      (∃ u ∈ l, r w u) ∨ l.getLast? = some w
  | [], w, _, hw => by simp at hw
  | [a], w, _, hw => by
    simp only [List.mem_singleton] at hw
    subst hw
    exact Or.inr rfl
  | a :: b :: t, w, hch, hw => by
    have hr : r a b := (List.chain'_cons.mp hch).1
    have hch' : List.Chain' r (b :: t) := (List.chain'_cons.mp hch).2
    rcases List.mem_cons.mp hw with rfl | hw'
    · exact Or.inl ⟨b, List.mem_cons_of_mem _ (List.mem_cons_self _ _), hr⟩
    · rcases chain'_mem_succ r (b :: t) w hch' hw' with ⟨u, hu, hur⟩ | hlast
      · exact Or.inl ⟨u, List.mem_cons_of_mem _ hu, hur⟩
      · exact Or.inr (by rwa [List.getLast?_cons_cons])

theorem cx_loop_spec (hnd : cities.Nodup) (h1 : parent1 ~ cities)
    (h2 : parent2 ~ cities) :
    ∀ (fuel : Nat) (index : Nat) (c1 c2 : List (Option Nat)) (V : List Nat),
      cities.length - V.length ≤ fuel →
      index < cities.length →
      (∀ v ∈ V, v < cities.length) →
      (V ++ [index]).Nodup →
      (V ++ [index]).head? = some 0 →
      List.Chain' (fun a b => cxStep parent1 parent2 a = b) (V ++ [index]) →
      c1.length = cities.length → c2.length = cities.length →
      ∃ c1' c2' W z,
        cx_loop parent1 parent2 (parent1.getD 0 0) fuel index
            (parent1.getD index 0) c1 c2 = some (c1', c2') ∧
        W.head? = some index ∧
        (∀ w ∈ W, w < cities.length) ∧
        (V ++ W).Nodup ∧
        List.Chain' (fun a b => cxStep parent1 parent2 a = b) (V ++ W) ∧
        (V ++ W).getLast? = some z ∧
        cxStep parent1 parent2 z = 0 ∧
        c1'.length = c1.length ∧ c2'.length = c2.length ∧
        (∀ j, j < cities.length → c1'.getD j none =
          if j ∈ W then some (parent1.getD j 0) else c1.getD j none) ∧
        (∀ j, j < cities.length → c2'.getD j none =
          if j ∈ W then some (parent2.getD j 0) else c2.getD j none) := by
  intro fuel
  induction fuel with
  | zero =>
    intro index c1 c2 V hfuel hidx hVlt hVnd hVhd hVch hl1 hl2
    exfalso
    have hsub : (V ++ [index]) ⊆ List.range cities.length := by
      intro x hx
      rcases List.mem_append.mp hx with h | h
      · exact List.mem_range.mpr (hVlt x h)
      · simp only [List.mem_singleton] at h
        subst h
        exact List.mem_range.mpr hidx
    have hle := (List.Nodup.subperm hVnd hsub).length_le
    simp only [List.length_append, List.length_singleton,
      List.length_range] at hle
    omega
  | succ fuel ih =>
    intro index c1 c2 V hfuel hidx hVlt hVnd hVhd hVch hl1 hl2
    have hstep_lt : cxStep parent1 parent2 index < cities.length :=
      cxStep_lt hnd h1 h2 index hidx
    have hc1il : index < c1.length := by omega
    have hc2il : index < c2.length := by omega
    by_cases hstop : parent1.getD (parent2.indexOf (parent1.getD index 0)) 0
        = parent1.getD 0 0
    · have hzero : cxStep parent1 parent2 index = 0 := by
        have h0 : (0 : Nat) < cities.length := by omega
        exact getD_inj hnd h1 hstep_lt h0 hstop
      refine ⟨c1.set index (some (parent1.getD index 0)),
        c2.set index (some (parent2.getD index 0)), [index], index,
        ?_, rfl, ?_, hVnd, hVch, List.getLast?_concat V, hzero,
        by simp, by simp, ?_, ?_⟩
      · simp only [cx_loop, if_pos hstop]
      · intro w hw
        simp only [List.mem_singleton] at hw
        subst hw
        exact hidx
      · intro j hj
        by_cases hji : j = index
        · subst hji
          rw [getD_set_self _ _ _ _ hc1il, if_pos (List.mem_singleton.mpr rfl)]
        · rw [getD_set_of_ne _ _ _ _ _ (by omega) (fun h => hji h.symm),
            if_neg (fun h => hji (List.mem_singleton.mp h))]
      · intro j hj
        by_cases hji : j = index
        · subst hji
          rw [getD_set_self _ _ _ _ hc2il, if_pos (List.mem_singleton.mpr rfl)]
        · rw [getD_set_of_ne _ _ _ _ _ (by omega) (fun h => hji h.symm),
            if_neg (fun h => hji (List.mem_singleton.mp h))]
    · have hne0 : cxStep parent1 parent2 index ≠ 0 := by
        intro h0
        apply hstop
        show parent1.getD (cxStep parent1 parent2 index) 0 = parent1.getD 0 0
        rw [h0]
      have hfresh : cxStep parent1 parent2 index ∉ V ++ [index] := by
        intro hmem
        obtain ⟨y, hy, hyr⟩ :=
          chain'_pred _ (V ++ [index]) _ 0 hVch hVhd hmem hne0
        rw [List.dropLast_concat] at hy
        have hylt : y < cities.length := hVlt y hy
        have hyi : y = index := cxStep_inj hnd h1 h2 hylt hidx hyr
        subst hyi
        exact (List.nodup_append.mp hVnd).2.2 hy (List.mem_singleton.mpr rfl)
      have hVlt' : ∀ v ∈ V ++ [index], v < cities.length := by
        intro v hv
        rcases List.mem_append.mp hv with h | h
        · exact hVlt v h
        · simp only [List.mem_singleton] at h
          subst h
          exact hidx
      have hVnd' : ((V ++ [index]) ++ [cxStep parent1 parent2 index]).Nodup := by
        rw [List.nodup_append]
        refine ⟨hVnd, List.nodup_singleton _, ?_⟩
        intro a ha hb
        simp only [List.mem_singleton] at hb
        subst hb
        exact hfresh ha
      have hVhd' :
          ((V ++ [index]) ++ [cxStep parent1 parent2 index]).head? = some 0 := by
        cases hV : (V ++ [index]) with
        | nil => rw [hV] at hVhd; simp at hVhd
        | cons a t =>
          rw [hV] at hVhd
          simp only [List.head?_cons, Option.some.injEq] at hVhd
          subst hVhd
          simp
      have hVch' : List.Chain' (fun a b => cxStep parent1 parent2 a = b)
          ((V ++ [index]) ++ [cxStep parent1 parent2 index]) := by
        rw [List.chain'_append]
        refine ⟨hVch, List.chain'_singleton _, ?_⟩
        intro x hx y hy
        rw [List.getLast?_concat] at hx
        simp only [List.head?_cons, Option.mem_def, Option.some.injEq] at hx hy
        subst hx
        subst hy
        rfl
      have hfuel' : cities.length - (V ++ [index]).length ≤ fuel := by
        simp only [List.length_append, List.length_singleton]
        omega
      obtain ⟨c1', c2', W', z, heq, hWhd, hWlt, hWnd, hWch, hWlast, hz,
        hlen1, hlen2, hcont1, hcont2⟩ :=
        ih (cxStep parent1 parent2 index)
          (c1.set index (some (parent1.getD index 0)))
          (c2.set index (some (parent2.getD index 0))) (V ++ [index])
          hfuel' hstep_lt hVlt' hVnd' hVhd' hVch'
          (by simpa using hl1) (by simpa using hl2)
      refine ⟨c1', c2', index :: W', z, ?_, rfl, ?_, ?_, ?_, ?_, hz,
        ?_, ?_, ?_, ?_⟩
      · simp only [cx_loop, if_neg hstop]
        exact heq
      · intro w hw
        rcases List.mem_cons.mp hw with rfl | hw'
        · exact hidx
        · exact hWlt w hw'
      · rw [show V ++ index :: W' = (V ++ [index]) ++ W' by simp]
        exact hWnd
      · rw [show V ++ index :: W' = (V ++ [index]) ++ W' by simp]
        exact hWch
      · rw [show V ++ index :: W' = (V ++ [index]) ++ W' by simp]
        exact hWlast
      · rw [hlen1]
        simp
      · rw [hlen2]
        simp
      · intro j hj
        have hjc1 : j < c1.length := by omega
        rw [hcont1 j hj]
        by_cases hjW' : j ∈ W'
        · rw [if_pos hjW', if_pos (List.mem_cons_of_mem _ hjW')]
        · by_cases hji : j = index
          · subst hji
            rw [if_neg hjW', if_pos (List.mem_cons_self _ _),
              getD_set_self _ _ _ _ hjc1]
          · rw [if_neg hjW',
              if_neg (by
                intro h
                rcases List.mem_cons.mp h with h' | h'
                exacts [hji h', hjW' h']),
              getD_set_of_ne _ _ _ _ _ hjc1 (fun h => hji h.symm)]
      · intro j hj
        have hjc2 : j < c2.length := by omega
        rw [hcont2 j hj]
        by_cases hjW' : j ∈ W'
        · rw [if_pos hjW', if_pos (List.mem_cons_of_mem _ hjW')]
        · by_cases hji : j = index
          · subst hji
            rw [if_neg hjW', if_pos (List.mem_cons_self _ _),
              getD_set_self _ _ _ _ hjc2]
          · rw [if_neg hjW',
              if_neg (by
                intro h
                rcases List.mem_cons.mp h with h' | h'
                exacts [hji h', hjW' h']),
              getD_set_of_ne _ _ _ _ _ hjc2 (fun h => hji h.symm)]

theorem chain_closed (W : List Nat) (z : Nat)
    (hch : List.Chain' (fun a b => cxStep parent1 parent2 a = b) W)
    (hlast : W.getLast? = some z) (hz : cxStep parent1 parent2 z = 0)
    (hhead : W.head? = some 0) :
    ∀ w ∈ W, cxStep parent1 parent2 w ∈ W := by
  intro w hw
  have h0W : (0 : Nat) ∈ W := by
    cases W with
    | nil => simp at hhead
    | cons a t =>
      simp only [List.head?_cons, Option.some.injEq] at hhead
      subst hhead
      exact List.mem_cons_self _ _
  rcases chain'_mem_succ _ W w hch hw with ⟨u, hu, hur⟩ | hlw
  · rw [hur]
    exact hu
  · rw [hlast] at hlw
    have hwz : z = w := (Option.some.injEq _ _).mp hlw
    subst hwz
    rw [hz]
    exact h0W

theorem closed_mem_of_step_mem (hnd : cities.Nodup) (h1 : parent1 ~ cities)
    (h2 : parent2 ~ cities) (W : List Nat) (hWnd : W.Nodup)
    (hWlt : ∀ w ∈ W, w < cities.length)
    (hclosed : ∀ w ∈ W, cxStep parent1 parent2 w ∈ W)
    (j : Nat) (hj : j < cities.length)
    (hjW : cxStep parent1 parent2 j ∈ W) : j ∈ W := by
  have himgnd : (W.map (cxStep parent1 parent2)).Nodup := by
    apply List.Nodup.map_on ?_ hWnd
    intro x hx y hy hxy
    exact cxStep_inj hnd h1 h2 (hWlt x hx) (hWlt y hy) hxy
  have himgsub : W.map (cxStep parent1 parent2) ⊆ W := by
    intro x hx
    obtain ⟨w, hw, rfl⟩ := List.mem_map.mp hx
    exact hclosed w hw
  have hperm : W.map (cxStep parent1 parent2) ~ W :=
    (List.Nodup.subperm himgnd himgsub).perm_of_length_le (by simp)
  obtain ⟨w, hw, hwj⟩ := List.mem_map.mp (hperm.mem_iff.mpr hjW)
  have hwjeq : w = j := cxStep_inj hnd h1 h2 (hWlt w hw) hj hwj
  subst hwjeq
  exact hw

theorem cx_select_perm (hnd : cities.Nodup) (pa pb : List Nat)
    (ha : pa ~ cities) (hb : pb ~ cities) (W : List Nat)
    (hsel : ∀ i, i < cities.length → i ∈ W → ∀ j, j < cities.length → j ∉ W →
      pa.getD i 0 ≠ pb.getD j 0) :
    (List.range cities.length).map
      (fun j => if j ∈ W then pa.getD j 0 else pb.getD j 0) ~ cities := by
  have hmemf : ∀ j, j < cities.length →
      (if j ∈ W then pa.getD j 0 else pb.getD j 0) ∈ cities := by
    intro j hj
    by_cases hjW : j ∈ W
    · rw [if_pos hjW]
      exact ha.mem_iff.mp
        (getD_mem_of_lt pa j (by rw [ha.length_eq]; exact hj))
    · rw [if_neg hjW]
      exact hb.mem_iff.mp
        (getD_mem_of_lt pb j (by rw [hb.length_eq]; exact hj))
  have hnd' : ((List.range cities.length).map
      (fun j => if j ∈ W then pa.getD j 0 else pb.getD j 0)).Nodup := by
    apply List.Nodup.map_on ?_ (List.nodup_range _)
    intro x hx y hy hxy
    have hxlt : x < cities.length := List.mem_range.mp hx
    have hylt : y < cities.length := List.mem_range.mp hy
    by_cases hxW : x ∈ W <;> by_cases hyW : y ∈ W
    · rw [if_pos hxW, if_pos hyW] at hxy
      exact getD_inj hnd ha hxlt hylt hxy
    · rw [if_pos hxW, if_neg hyW] at hxy
      exact absurd hxy (hsel x hxlt hxW y hylt hyW)
    · rw [if_neg hxW, if_pos hyW] at hxy
      exact absurd hxy.symm (hsel y hylt hyW x hxlt hxW)
    · rw [if_neg hxW, if_neg hyW] at hxy
      exact getD_inj hnd hb hxlt hylt hxy
  have hsub : (List.range cities.length).map
      (fun j => if j ∈ W then pa.getD j 0 else pb.getD j 0) ⊆ cities := by
    intro x hx
    obtain ⟨j, hj, rfl⟩ := List.mem_map.mp hx
    exact hmemf j (List.mem_range.mp hj)
  exact (List.Nodup.subperm hnd' hsub).perm_of_length_le (by simp)

theorem getD_replicate_none (m j : Nat) :
    (List.replicate m (none : Option Nat)).getD j none = none := by
  rcases Nat.lt_or_ge j m with h | h
  · rw [List.getD_eq_getElem _ _ (by simpa using h)]
    simp
  · exact List.getD_eq_default _ _ (by simpa using h)

theorem cycle_crossover_valid (hnd : cities.Nodup) (h1 : parent1 ~ cities)
    (h2 : parent2 ~ cities) (hn : 0 < cities.length) :
    ∃ ch1 ch2, cycle_crossover parent1 parent2 = some (ch1, ch2) ∧
      IsValidOpt cities ch1 ∧ IsValidOpt cities ch2 := by
  have hp1n : parent1.length = cities.length := h1.length_eq
  have hp2n : parent2.length = cities.length := h2.length_eq
  obtain ⟨c1', c2', W, z, heq, hWhd, hWlt, hWnd0, hWch0, hWlast0, hz,
    hlen1, hlen2, hcont1, hcont2⟩ :=
    cx_loop_spec hnd h1 h2 parent1.length 0
      (List.replicate parent1.length (none : Option Nat))
      (List.replicate parent1.length (none : Option Nat)) []
      (by omega) hn (by simp) (by simp) (by simp)
      (by simp) (by simp [hp1n]) (by simp [hp1n])
  simp only [List.nil_append] at hWnd0 hWch0 hWlast0
  have hclosed : ∀ w ∈ W, cxStep parent1 parent2 w ∈ W :=
    chain_closed W z hWch0 hWlast0 hz hWhd
  have hc1len : c1'.length = cities.length := by
    rw [hlen1]
    simp [hp1n]
  have hc2len : c2'.length = cities.length := by
    rw [hlen2]
    simp [hp1n]
  have hfill : ∀ (c : List (Option Nat)) (pa pb : List Nat),
      c.length = cities.length → pb.length = cities.length →
      (∀ j, j < cities.length →
        c.getD j none = if j ∈ W then some (pa.getD j 0) else none) →
      cx_fill_chromosome c pb
        = ((List.range cities.length).map
            (fun j => if j ∈ W then pa.getD j 0 else pb.getD j 0)).map some := by
    intro c pa pb hcl hpbl hc
    apply List.ext_getElem
    · simp [cx_fill_chromosome, hcl, hpbl]
    · intro j hj1 hj2
      have hjn : j < cities.length := by
        simp only [List.length_map, List.length_range] at hj2
        exact hj2
      have hjc : j < c.length := by omega
      have hjpb : j < pb.length := by omega
      simp only [cx_fill_chromosome, List.getElem_zipWith, List.getElem_map,
        List.getElem_range]
      have hcj := hc j hjn
      rw [List.getD_eq_getElem c none hjc] at hcj
      rw [hcj]
      by_cases hjW : j ∈ W
      · rw [if_pos hjW, if_pos hjW]
        rfl
      · rw [if_neg hjW, if_neg hjW]
        simp only [Option.getD_none, Option.some.injEq]
        exact (List.getD_eq_getElem pb 0 hjpb).symm
  have hcont1' : ∀ j, j < cities.length →
      c1'.getD j none = if j ∈ W then some (parent1.getD j 0) else none := by
    intro j hj
    rw [hcont1 j hj, getD_replicate_none]
  have hcont2' : ∀ j, j < cities.length →
      c2'.getD j none = if j ∈ W then some (parent2.getD j 0) else none := by
    intro j hj
    rw [hcont2 j hj, getD_replicate_none]
  have hfill1 := hfill c1' parent1 parent2 hc1len hp2n hcont1'
  have hfill2 := hfill c2' parent2 parent1 hc2len hp1n hcont2'
  have hsel1 : ∀ i, i < cities.length → i ∈ W →
      ∀ j, j < cities.length → j ∉ W → parent1.getD i 0 ≠ parent2.getD j 0 := by
    intro i hi hiW j hj hjW heq'
    apply hjW
    have hji : cxStep parent1 parent2 i = j := by
      rw [cxStep, heq']
      have hjp2 : j < parent2.length := by omega
      rw [List.getD_eq_getElem _ _ hjp2]
      exact List.indexOf_getElem (h2.nodup_iff.mpr hnd) j hjp2
    rw [← hji]
    exact hclosed i hiW
  have hsel2 : ∀ i, i < cities.length → i ∈ W →
      ∀ j, j < cities.length → j ∉ W → parent2.getD i 0 ≠ parent1.getD j 0 := by
    intro i hi hiW j hj hjW heq'
    apply hjW
    have hji : cxStep parent1 parent2 j = i := by
      rw [cxStep, heq'.symm]
      have hip2 : i < parent2.length := by omega
      rw [List.getD_eq_getElem _ _ hip2]
      exact List.indexOf_getElem (h2.nodup_iff.mpr hnd) i hip2
    exact closed_mem_of_step_mem hnd h1 h2 W hWnd0 hWlt hclosed j hj
      (by rw [hji]; exact hiW)
  refine ⟨cx_fill_chromosome c1' parent2, cx_fill_chromosome c2' parent1,
    ?_, ?_, ?_⟩
  · simp only [cycle_crossover, heq]
  · exact ⟨_, hfill1, cx_select_perm hnd parent1 parent2 h1 h2 W hsel1⟩
  · exact ⟨_, hfill2, cx_select_perm hnd parent2 parent1 h2 h1 W hsel2⟩

end CXCorrectness

section PMXCorrectness

/-- One-step unfolding of the PMX counterpart resolution. -/
theorem ggc_unfold (g : Nat) (M : List (Nat × Nat)) :
    get_gene_counterpart g M =
      match M.find? (fun mv => g == mv.1 || g == mv.2) with
      | none => g
      | some mv =>
        get_gene_counterpart (if mv.1 ≠ g then mv.1 else mv.2) (M.erase mv) := by
  cases M with
  | nil => rfl
  | cons a t =>
    show getGeneCounterpartFuel (t.length + 1) g (a :: t) = _
    simp only [getGeneCounterpartFuel]
    cases hfind : (a :: t).find? (fun mv => g == mv.1 || g == mv.2) with
    | none => simp
    | some mv =>
      simp only []
      have hmem := List.mem_of_find?_eq_some hfind
      have hlen : ((a :: t).erase mv).length = t.length := by
        rw [List.length_erase_of_mem hmem]
        simp
      show getGeneCounterpartFuel t.length _ _ = get_gene_counterpart _ _
      unfold get_gene_counterpart
      rw [hlen]

theorem find?_erase_of_not_pred {α : Type} [BEq α] [LawfulBEq α]
    (p : α → Bool) (a : α) (hpa : ¬ p a = true) :
    ∀ (l : List α), (l.erase a).find? p = l.find? p
  | [] => rfl
  | b :: t => by
    by_cases hba : b = a
    · subst hba
      rw [List.erase_cons_head]
      rw [List.find?_cons_of_neg _ hpa]
    · rw [List.erase_cons_tail (by simpa using hba)]
      by_cases hpb : p b = true
      · rw [List.find?_cons_of_pos _ hpb, List.find?_cons_of_pos _ hpb]
      · rw [List.find?_cons_of_neg _ hpb, List.find?_cons_of_neg _ hpb]
        exact find?_erase_of_not_pred p a hpa t

theorem perm_cons_erase_beq {α : Type} [BEq α] [LawfulBEq α] {a : α} :
    ∀ {l : List α}, a ∈ l → l ~ a :: l.erase a
  | b :: t, h => by
    by_cases hba : b = a
    · subst hba
      rw [List.erase_cons_head]
    · rw [List.erase_cons_tail (by simpa using hba)]
      have hat : a ∈ t := by
        rcases List.mem_cons.mp h with h' | h'
        · exact absurd h'.symm hba
        · exact h'
      calc b :: t ~ b :: a :: t.erase a := (perm_cons_erase_beq hat).cons b
        _ ~ a :: b :: t.erase a := List.Perm.swap _ _ _

/-- If the search finds a pair, the pair is in the list, satisfies the
predicate, and (when the gene is not a first component) must contain the
gene as its second component. -/
theorem find?_pair_facts (g : Nat) (M : List (Nat × Nat)) (P : Nat × Nat)
    (hg : g ∉ M.map Prod.fst)
    (hfind : M.find? (fun mv => g == mv.1 || g == mv.2) = some P) :
    P ∈ M ∧ P.1 ≠ g ∧ P.2 = g := by
  have hmem : P ∈ M := List.mem_of_find?_eq_some hfind
  have hp := List.find?_some hfind
  have hP1 : P.1 ≠ g := by
    intro h
    exact hg (List.mem_map.mpr ⟨P, hmem, h⟩)
  simp only [Bool.or_eq_true, beq_iff_eq] at hp
  rcases hp with h | h
  · exact absurd h.symm hP1
  · exact ⟨hmem, hP1, h.symm⟩

theorem erase_map_facts (M : List (Nat × Nat)) (P : Nat × Nat) (hP : P ∈ M)
    (hf : (M.map Prod.fst).Nodup) (hs : (M.map Prod.snd).Nodup) :
    ((M.erase P).map Prod.fst).Nodup ∧ ((M.erase P).map Prod.snd).Nodup ∧
    P.1 ∉ (M.erase P).map Prod.fst ∧ P.2 ∉ (M.erase P).map Prod.snd ∧
    (M.erase P).map Prod.fst ⊆ M.map Prod.fst ∧
    (M.erase P).map Prod.snd ⊆ M.map Prod.snd := by
  have hperm : M ~ P :: M.erase P := perm_cons_erase_beq hP
  have hpermf : M.map Prod.fst ~ P.1 :: (M.erase P).map Prod.fst := by
    simpa using hperm.map Prod.fst
  have hperms : M.map Prod.snd ~ P.2 :: (M.erase P).map Prod.snd := by
    simpa using hperm.map Prod.snd
  have hf' := hpermf.nodup_iff.mp hf
  have hs' := hperms.nodup_iff.mp hs
  rw [List.nodup_cons] at hf' hs'
  refine ⟨hf'.2, hs'.2, hf'.1, hs'.1, ?_, ?_⟩
  · intro x hx
    exact hpermf.mem_iff.mpr (List.mem_cons_of_mem _ hx)
  · intro x hx
    exact hperms.mem_iff.mpr (List.mem_cons_of_mem _ hx)

theorem resolve_spec (M : List (Nat × Nat)) (g : Nat)
    (hf : (M.map Prod.fst).Nodup) (hs : (M.map Prod.snd).Nodup)
    (hg : g ∉ M.map Prod.fst) :
    (g ∉ M.map Prod.snd → get_gene_counterpart g M = g) ∧
    (g ∈ M.map Prod.snd → get_gene_counterpart g M ∈ M.map Prod.fst ∧
      get_gene_counterpart g M ∉ M.map Prod.snd) := by
  cases hfind : M.find? (fun mv => g == mv.1 || g == mv.2) with
  | none =>
    have hnone := List.find?_eq_none.mp hfind
    constructor
    · intro _
      rw [ggc_unfold, hfind]
    · intro hgs
      exfalso
      obtain ⟨mv, hmv, hmv2⟩ := List.mem_map.mp hgs
      exact hnone mv hmv (by simp [hmv2])
  | some P =>
    obtain ⟨hPmem, hP1, hP2⟩ := find?_pair_facts g M P hg hfind
    have hstep : (if P.1 ≠ g then P.1 else P.2) = P.1 := if_pos hP1
    have hR : get_gene_counterpart g M = get_gene_counterpart P.1 (M.erase P) := by
      rw [ggc_unfold, hfind]
      simp only [hstep]
    obtain ⟨hf', hs', hP1f, hP2s, hsubf, hsubs⟩ :=
      erase_map_facts M P hPmem hf hs
    have hlt : (M.erase P).length < M.length := by
      have := List.length_erase_of_mem hPmem
      have hpos := List.length_pos_of_mem hPmem
      omega
    have IH := resolve_spec (M.erase P) P.1 hf' hs' hP1f
    constructor
    · intro hgs
      exfalso
      exact hgs (List.mem_map.mpr ⟨P, hPmem, hP2⟩)
    · intro _
      rw [hR]
      by_cases hP1s : P.1 ∈ (M.erase P).map Prod.snd
      · obtain ⟨hin, hout⟩ := IH.2 hP1s
        refine ⟨hsubf hin, ?_⟩
        intro hmem
        have hperm : M ~ P :: M.erase P := perm_cons_erase_beq hPmem
        have hperms : M.map Prod.snd ~ P.2 :: (M.erase P).map Prod.snd := by
          simpa using hperm.map Prod.snd
        rcases List.mem_cons.mp (hperms.mem_iff.mp hmem) with h | h
        · rw [hP2] at h
          exact hg (h ▸ hsubf hin)
        · exact hout h
      · rw [IH.1 hP1s]
        refine ⟨List.mem_map.mpr ⟨P, hPmem, rfl⟩, ?_⟩
        intro hmem
        have hperm : M ~ P :: M.erase P := perm_cons_erase_beq hPmem
        have hperms : M.map Prod.snd ~ P.2 :: (M.erase P).map Prod.snd := by
          simpa using hperm.map Prod.snd
        rcases List.mem_cons.mp (hperms.mem_iff.mp hmem) with h | h
        · rw [hP2] at h
          exact hP1 h
        · exact hP1s h
termination_by M.length
decreasing_by
  exact hlt

theorem resolve_erase (M : List (Nat × Nat)) (g : Nat) (Q : Nat × Nat)
    (hf : (M.map Prod.fst).Nodup) (hs : (M.map Prod.snd).Nodup)
    (hg : g ∉ M.map Prod.fst) (hQ : Q ∈ M)
    (hQ2f : Q.2 ∉ M.map Prod.fst) (hQ2g : Q.2 ≠ g) :
    get_gene_counterpart g (M.erase Q) = get_gene_counterpart g M := by
  have hQ1g : Q.1 ≠ g := by
    intro h
    exact hg (h ▸ List.mem_map.mpr ⟨Q, hQ, rfl⟩)
  have hQpred : ¬ ((fun mv => g == mv.1 || g == mv.2) Q = true) := by
    simp only [Bool.or_eq_true, beq_iff_eq]
    push_neg
    exact ⟨fun h => hQ1g h.symm, fun h => hQ2g h.symm⟩
  cases hfind : M.find? (fun mv => g == mv.1 || g == mv.2) with
  | none =>
    rw [ggc_unfold g M, hfind, ggc_unfold g (M.erase Q),
      find?_erase_of_not_pred (fun mv => g == mv.1 || g == mv.2) Q hQpred M,
      hfind]
  | some P =>
    obtain ⟨hPmem, hP1, hP2⟩ := find?_pair_facts g M P hg hfind
    have hQP : Q ≠ P := by
      intro h
      subst h
      exact hQ2g hP2
    have hfind' : (M.erase Q).find? (fun mv => g == mv.1 || g == mv.2)
        = some P := by
      rw [find?_erase_of_not_pred (fun mv => g == mv.1 || g == mv.2) Q hQpred M]
      exact hfind
    have hstep : (if P.1 ≠ g then P.1 else P.2) = P.1 := if_pos hP1
    rw [ggc_unfold g M, hfind, ggc_unfold g (M.erase Q), hfind']
    simp only [hstep]
    rw [List.erase_comm]
    obtain ⟨hf', hs', hP1f, hP2s, hsubf, hsubs⟩ :=
      erase_map_facts M P hPmem hf hs
    have hlt : (M.erase P).length < M.length := by
      have := List.length_erase_of_mem hPmem
      have hpos := List.length_pos_of_mem hPmem
      omega
    have hQ' : Q ∈ M.erase P := (List.mem_erase_of_ne hQP).mpr hQ
    have hQ2f' : Q.2 ∉ (M.erase P).map Prod.fst := fun h => hQ2f (hsubf h)
    have hQ2P1 : Q.2 ≠ P.1 := by
      intro h
      exact hQ2f (h ▸ List.mem_map.mpr ⟨P, hPmem, rfl⟩)
    exact resolve_erase (M.erase P) P.1 Q hf' hs' hP1f hQ' hQ2f' hQ2P1
termination_by M.length
decreasing_by
  exact hlt

theorem resolve_find_pair (M : List (Nat × Nat)) (g : Nat)
    (hg : g ∉ M.map Prod.fst) (hgs : g ∈ M.map Prod.snd) :
    ∃ P, M.find? (fun mv => g == mv.1 || g == mv.2) = some P ∧
      P ∈ M ∧ P.1 ≠ g ∧ P.2 = g := by
  obtain ⟨mv, hmv, hmv2⟩ := List.mem_map.mp hgs
  have hsome : (M.find? (fun mv => g == mv.1 || g == mv.2)).isSome :=
    List.find?_isSome.mpr ⟨mv, hmv, by simp [hmv2]⟩
  obtain ⟨P, hP⟩ := Option.isSome_iff_exists.mp hsome
  exact ⟨P, hP, find?_pair_facts g M P hg hP⟩

theorem resolve_inj (M : List (Nat × Nat)) (g g' : Nat)
    (hf : (M.map Prod.fst).Nodup) (hs : (M.map Prod.snd).Nodup)
    (hg : g ∉ M.map Prod.fst) (hg' : g' ∉ M.map Prod.fst) (hne : g ≠ g') :
    get_gene_counterpart g M ≠ get_gene_counterpart g' M := by
  by_cases hgs : g ∈ M.map Prod.snd
  · by_cases hg's : g' ∈ M.map Prod.snd
    · obtain ⟨P, hfind, hPmem, hP1, hP2⟩ := resolve_find_pair M g hg hgs
      obtain ⟨P', hfind', hP'mem, hP'1, hP'2⟩ := resolve_find_pair M g' hg' hg's
      have hPP' : P' ≠ P := by
        intro h
        subst h
        exact hne (hP2.symm.trans hP'2)
      obtain ⟨hf', hs', hP1f, hP2s, hsubf, hsubs⟩ :=
        erase_map_facts M P hPmem hf hs
      have hP'memE : P' ∈ M.erase P := (List.mem_erase_of_ne hPP').mpr hP'mem
      obtain ⟨hf'', hs'', hP'1f, hP'2s, hsubf', hsubs'⟩ :=
        erase_map_facts (M.erase P) P' hP'memE hf' hs'
      have hP1ne : P.1 ≠ P'.1 := by
        intro h
        exact hP1f (h ▸ List.mem_map.mpr ⟨P', hP'memE, rfl⟩)
      have hlt : ((M.erase P).erase P').length < M.length := by
        have h1 := List.length_erase_of_mem hPmem
        have h2 := List.length_erase_of_mem hP'memE
        have hpos := List.length_pos_of_mem hPmem
        omega
      have hR : get_gene_counterpart g M
          = get_gene_counterpart P.1 ((M.erase P).erase P') := by
        rw [ggc_unfold g M, hfind]
        simp only [if_pos hP1]
        rw [resolve_erase (M.erase P) P.1 P' hf' hs' hP1f hP'memE
          (fun h => hg' (hP'2 ▸ hsubf h)) (fun h => hg' (hP'2 ▸ h ▸
            List.mem_map.mpr ⟨P, hPmem, rfl⟩))]
      have hR' : get_gene_counterpart g' M
          = get_gene_counterpart P'.1 ((M.erase P).erase P') := by
        rw [ggc_unfold g' M, hfind']
        simp only [if_pos hP'1]
        rw [List.erase_comm]
        have hPmemE : P ∈ M.erase P' :=
          (List.mem_erase_of_ne (fun h => hPP' h.symm)).mpr hPmem
        obtain ⟨hfE, hsE, hPf, hPs, hsubfE, hsubsE⟩ :=
          erase_map_facts M P' hP'mem hf hs
        rw [resolve_erase (M.erase P') P'.1 P hfE hsE hPf hPmemE
          (fun h => hg (hP2 ▸ hsubfE h)) (fun h => hg (hP2 ▸ h ▸
            List.mem_map.mpr ⟨P', hP'mem, rfl⟩))]
      rw [hR, hR']
      have hP'1notf : P'.1 ∉ ((M.erase P).erase P').map Prod.fst := hP'1f
      have hP1notf : P.1 ∉ ((M.erase P).erase P').map Prod.fst :=
        fun h => hP1f (hsubf' h)
      exact resolve_inj ((M.erase P).erase P') P.1 P'.1 hf'' hs''
        hP1notf hP'1notf hP1ne
    · intro heq
      obtain ⟨hin, _⟩ := (resolve_spec M g hf hs hg).2 hgs
      rw [(resolve_spec M g' hf hs hg').1 hg's] at heq
      exact hg' (heq ▸ hin)
  · by_cases hg's : g' ∈ M.map Prod.snd
    · intro heq
      obtain ⟨hin, _⟩ := (resolve_spec M g' hf hs hg').2 hg's
      rw [(resolve_spec M g hf hs hg).1 hgs] at heq
      exact hg (heq.symm ▸ hin)
    · rw [(resolve_spec M g hf hs hg).1 hgs,
        (resolve_spec M g' hf hs hg').1 hg's]
      exact hne
termination_by M.length
decreasing_by
  exact hlt

theorem find?_map_swap (g : Nat) : ∀ (M : List (Nat × Nat)),
    (M.map Prod.swap).find? (fun mv => g == mv.1 || g == mv.2)
      = (M.find? (fun mv => g == mv.1 || g == mv.2)).map Prod.swap
  | [] => rfl
  | P :: t => by
    rw [List.map_cons]
    simp only [List.find?_cons]
    by_cases hp : (g == P.1 || g == P.2) = true
    · have hp' : (g == P.swap.1 || g == P.swap.2) = true := by
        rw [Prod.fst_swap, Prod.snd_swap, Bool.or_comm]
        exact hp
      rw [hp, hp']
      rfl
    · have hpf : (g == P.1 || g == P.2) = false := by simpa using hp
      have hpf' : (g == P.swap.1 || g == P.swap.2) = false := by
        rw [Prod.fst_swap, Prod.snd_swap, Bool.or_comm]
        exact hpf
      rw [hpf, hpf']
      exact find?_map_swap g t

theorem erase_map_swap (P : Nat × Nat) : ∀ (M : List (Nat × Nat)),
    (M.map Prod.swap).erase (Prod.swap P) = (M.erase P).map Prod.swap
  | [] => rfl
  | Q :: t => by
    by_cases hq : Q = P
    · subst hq
      rw [List.map_cons, List.erase_cons_head, List.erase_cons_head]
    · have hq' : Prod.swap Q ≠ Prod.swap P := fun h => hq (Prod.swap_injective h)
      rw [List.map_cons, List.erase_cons_tail (by simpa using hq'),
        List.erase_cons_tail (by simpa using hq), List.map_cons,
        erase_map_swap P t]

theorem resolve_swap (g : Nat) (M : List (Nat × Nat)) :
    get_gene_counterpart g (M.map Prod.swap) = get_gene_counterpart g M := by
  cases hfind : M.find? (fun mv => g == mv.1 || g == mv.2) with
  | none =>
    rw [ggc_unfold g (M.map Prod.swap), find?_map_swap g M, hfind,
      ggc_unfold g M, hfind]
    rfl
  | some P =>
    have hp := List.find?_some hfind
    have hPmem := List.mem_of_find?_eq_some hfind
    have hlt : (M.erase P).length < M.length := by
      have := List.length_erase_of_mem hPmem
      have hpos := List.length_pos_of_mem hPmem
      omega
    rw [ggc_unfold g (M.map Prod.swap), find?_map_swap g M, hfind,
      ggc_unfold g M, hfind]
    show get_gene_counterpart (if P.swap.1 ≠ g then P.swap.1 else P.swap.2)
        ((List.map Prod.swap M).erase P.swap)
      = get_gene_counterpart (if P.1 ≠ g then P.1 else P.2) (M.erase P)
    have hgene : (if P.swap.1 ≠ g then P.swap.1 else P.swap.2)
        = (if P.1 ≠ g then P.1 else P.2) := by
      rcases P with ⟨a, b⟩
      simp only [Bool.or_eq_true, beq_iff_eq] at hp
      simp only [Prod.swap_prod_mk]
      by_cases hag : a = g
      · subst hag
        by_cases hbg : b = a
        · subst hbg
          rfl
        · show (if b ≠ a then b else a) = (if a ≠ a then a else b)
          rw [if_pos hbg, if_neg (fun h => h rfl)]
      · by_cases hbg : b = g
        · subst hbg
          show (if b ≠ b then b else a) = (if a ≠ b then a else b)
          rw [if_neg (fun h => h rfl), if_pos hag]
        · rcases hp with h | h
          · exact absurd h.symm hag
          · exact absurd h.symm hbg
    rw [erase_map_swap P M, hgene]
    exact resolve_swap _ (M.erase P)
termination_by M.length
decreasing_by
  exact hlt

theorem pySlice_getD (l : List Nat) (p1 p2 j : Nat) (h : p1 ≤ j)
    (hj : j < p2) (h2 : p2 ≤ l.length) :
    (pySlice l p1 p2).getD (j - p1) 0 = l.getD j 0 := by
  have hlen : (pySlice l p1 p2).length = p2 - p1 := by
    simp only [pySlice, List.length_drop, List.length_take]
    omega
  have hb : j - p1 < (pySlice l p1 p2).length := by omega
  have hjl : j < l.length := by omega
  rw [List.getD_eq_getElem _ _ hb, List.getD_eq_getElem _ _ hjl]
  simp only [pySlice, List.getElem_drop, List.getElem_take]
  congr 1
  omega

theorem mem_pySlice_iff (l : List Nat) (p1 p2 : Nat) (h2 : p2 ≤ l.length)
    (g : Nat) :
    g ∈ pySlice l p1 p2 ↔
      ∃ j, p1 ≤ j ∧ j < p2 ∧ l.getD j 0 = g := by
  have hlen : (pySlice l p1 p2).length = p2 - p1 := by
    simp only [pySlice, List.length_drop, List.length_take]
    omega
  constructor
  · intro hg
    obtain ⟨k, hk, hkg⟩ := List.mem_iff_getElem.mp hg
    refine ⟨p1 + k, by omega, by omega, ?_⟩
    have hb : (p1 + k) - p1 < (pySlice l p1 p2).length := by omega
    have := pySlice_getD l p1 p2 (p1 + k) (by omega) (by omega) h2
    rw [← this, List.getD_eq_getElem _ _ hb]
    rw [← hkg]
    congr 1
    omega
  · rintro ⟨j, hj1, hj2, hjg⟩
    rw [← pySlice_getD l p1 p2 j hj1 hj2 h2] at hjg
    rw [← hjg]
    apply getD_mem_of_lt
    omega

theorem getD_not_mem_pySlice (l : List Nat) (hl : l.Nodup) (p1 p2 i : Nat)
    (hi : i < l.length) (hout : i < p1 ∨ p2 ≤ i) (h2 : p2 ≤ l.length) :
    l.getD i 0 ∉ pySlice l p1 p2 := by
  intro hmem
  obtain ⟨j, hj1, hj2, hjg⟩ := (mem_pySlice_iff l p1 p2 h2 _).mp hmem
  have hij : j = i := getD_inj hl (List.Perm.refl l) (by omega) hi hjg
  omega

theorem getD_mem_pySlice (l : List Nat) (p1 p2 j : Nat) (hj1 : p1 ≤ j)
    (hj2 : j < p2) (h2 : p2 ≤ l.length) :
    l.getD j 0 ∈ pySlice l p1 p2 :=
  (mem_pySlice_iff l p1 p2 h2 _).mpr ⟨j, hj1, hj2, rfl⟩

theorem pmx_fill_spec (cities pa pb : List Nat) (M : List (Nat × Nat))
    (p1 p2 : Nat) (hnd : cities.Nodup) (hpa : pa ~ cities) (hpb : pb ~ cities)
    (hp2 : p2 ≤ cities.length)
    (hR1 : ∀ g, g ∈ pySlice pb p1 p2 → g ∉ pySlice pa p1 p2 →
      get_gene_counterpart g M ∈ pySlice pa p1 p2) :
    ∀ (k i : Nat) (chi : List (Option Nat)),
      i + k = cities.length →
      chi.length = cities.length →
      (∀ j, j < cities.length → chi.getD j none =
        if p1 ≤ j ∧ j < p2 then some (pb.getD j 0)
        else if j < i then
          some (if pa.getD j 0 ∈ pySlice pb p1 p2
            then get_gene_counterpart (pa.getD j 0) M else pa.getD j 0)
        else none) →
      ((List.range' i k).foldl (fun chrom idx =>
          if idx < p1 ∨ p2 ≤ idx then
            if some (pa.getD idx 0) ∈ chrom then
              chrom.set idx (some (get_gene_counterpart (pa.getD idx 0) M))
            else chrom.set idx (some (pa.getD idx 0))
          else chrom) chi).length = cities.length ∧
      (∀ j, j < cities.length →
        ((List.range' i k).foldl (fun chrom idx =>
          if idx < p1 ∨ p2 ≤ idx then
            if some (pa.getD idx 0) ∈ chrom then
              chrom.set idx (some (get_gene_counterpart (pa.getD idx 0) M))
            else chrom.set idx (some (pa.getD idx 0))
          else chrom) chi).getD j none =
        if p1 ≤ j ∧ j < p2 then some (pb.getD j 0)
        else if j < i + k then
          some (if pa.getD j 0 ∈ pySlice pb p1 p2
            then get_gene_counterpart (pa.getD j 0) M else pa.getD j 0)
        else none) := by
  intro k
  induction k with
  | zero =>
    intro i chi hik hlen hcont
    simp only [List.range'_zero, List.foldl_nil]
    exact ⟨hlen, by simpa using hcont⟩
  | succ k ih =>
    intro i chi hik hlen hcont
    have hpan : pa.length = cities.length := hpa.length_eq
    have hpbn : pb.length = cities.length := hpb.length_eq
    have hand : pa.Nodup := hpa.nodup_iff.mpr hnd
    have hin : i < cities.length := by omega
    rw [List.range'_succ, List.foldl_cons]
    by_cases hwin : i < p1 ∨ p2 ≤ i
    · -- position outside the copied segment: the loop writes it
      have houtval : pa.getD i 0 ∉ pySlice pa p1 p2 :=
        getD_not_mem_pySlice pa hand p1 p2 i (by omega)
          (by omega) (by omega)
      have htest : (some (pa.getD i 0) ∈ chi) ↔
          pa.getD i 0 ∈ pySlice pb p1 p2 := by
        constructor
        · intro hmem
          obtain ⟨idx, hidx, hidxv⟩ := List.mem_iff_getElem.mp hmem
          have hidxn : idx < cities.length := by omega
          have hval := hcont idx hidxn
          rw [List.getD_eq_getElem chi none hidx] at hval
          rw [hidxv] at hval
          by_cases hw : p1 ≤ idx ∧ idx < p2
          · rw [if_pos hw] at hval
            have : pa.getD i 0 = pb.getD idx 0 :=
              (Option.some.injEq _ _).mp hval
            rw [this]
            exact getD_mem_pySlice pb p1 p2 idx hw.1 hw.2 (by omega)
          · rw [if_neg hw] at hval
            by_cases hidxi : idx < i
            · rw [if_pos hidxi] at hval
              have hveq := (Option.some.injEq _ _).mp hval
              by_cases hmem' : pa.getD idx 0 ∈ pySlice pb p1 p2
              · rw [if_pos hmem'] at hveq
                exfalso
                have houtidx : pa.getD idx 0 ∉ pySlice pa p1 p2 :=
                  getD_not_mem_pySlice pa hand p1 p2 idx (by omega)
                    (by omega) (by omega)
                have hRin := hR1 _ hmem' houtidx
                rw [← hveq] at hRin
                exact houtval hRin
              · rw [if_neg hmem'] at hveq
                exfalso
                have : i = idx := getD_inj hnd hpa hin hidxn hveq
                omega
            · rw [if_neg hidxi] at hval
              exact absurd hval (by simp)
        · intro hmem
          obtain ⟨j, hj1, hj2, hjg⟩ :=
            (mem_pySlice_iff pb p1 p2 (by omega) _).mp hmem
          have hjn : j < cities.length := by omega
          have hval := hcont j hjn
          rw [if_pos ⟨hj1, hj2⟩] at hval
          rw [hjg] at hval
          have hjchi : j < chi.length := by omega
          rw [List.getD_eq_getElem chi none hjchi] at hval
          exact List.mem_iff_getElem.mpr ⟨j, hjchi, hval⟩
      have hstep : (if some (pa.getD i 0) ∈ chi then
            chi.set i (some (get_gene_counterpart (pa.getD i 0) M))
          else chi.set i (some (pa.getD i 0)))
          = chi.set i (some (if pa.getD i 0 ∈ pySlice pb p1 p2
              then get_gene_counterpart (pa.getD i 0) M
              else pa.getD i 0)) := by
        by_cases hmem : pa.getD i 0 ∈ pySlice pb p1 p2
        · rw [if_pos (htest.mpr hmem), if_pos hmem]
        · rw [if_neg (fun h => hmem (htest.mp h)), if_neg hmem]
      rw [if_pos hwin, hstep]
      have hbnd : i + (k + 1) = (i + 1) + k := by omega
      have hcont' : ∀ j, j < cities.length →
          (chi.set i (some (if pa.getD i 0 ∈ pySlice pb p1 p2
            then get_gene_counterpart (pa.getD i 0) M
            else pa.getD i 0))).getD j none =
          if p1 ≤ j ∧ j < p2 then some (pb.getD j 0)
          else if j < i + 1 then
            some (if pa.getD j 0 ∈ pySlice pb p1 p2
              then get_gene_counterpart (pa.getD j 0) M else pa.getD j 0)
          else none := by
        intro j hj
        have hjchi : j < chi.length := by omega
        by_cases hw : p1 ≤ j ∧ j < p2
        · rw [if_pos hw]
          have hij : i ≠ j := by rcases hwin with h | h <;> omega
          rw [getD_set_of_ne _ _ _ _ _ hjchi hij]
          have := hcont j hj
          rwa [if_pos hw] at this
        · rw [if_neg hw]
          by_cases hji : j = i
          · subst hji
            rw [getD_set_self _ _ _ _ hjchi,
              if_pos (show j < j + 1 by omega)]
          · have hij : i ≠ j := fun h => hji h.symm
            rw [getD_set_of_ne _ _ _ _ _ hjchi hij]
            have := hcont j hj
            rw [if_neg hw] at this
            by_cases hjlt : j < i
            · rw [if_pos (by omega)]
              rwa [if_pos hjlt] at this
            · rw [if_neg (by omega)]
              rwa [if_neg hjlt] at this
      obtain ⟨hl, hc⟩ := ih (i + 1)
        (chi.set i (some (if pa.getD i 0 ∈ pySlice pb p1 p2
          then get_gene_counterpart (pa.getD i 0) M else pa.getD i 0)))
        (by omega) (by simpa using hlen) hcont'
      refine ⟨hl, ?_⟩
      intro j hj
      rw [hbnd]
      exact hc j hj
    · -- position inside the copied segment: the loop skips it
      rw [if_neg hwin]
      have hiw : p1 ≤ i ∧ i < p2 := by omega
      have hbnd : i + (k + 1) = (i + 1) + k := by omega
      have hcont' : ∀ j, j < cities.length → chi.getD j none =
          if p1 ≤ j ∧ j < p2 then some (pb.getD j 0)
          else if j < i + 1 then
            some (if pa.getD j 0 ∈ pySlice pb p1 p2
              then get_gene_counterpart (pa.getD j 0) M else pa.getD j 0)
          else none := by
        intro j hj
        have := hcont j hj
        by_cases hw : p1 ≤ j ∧ j < p2
        · rwa [if_pos hw] at this ⊢
        · rw [if_neg hw] at this ⊢
          by_cases hji : j = i
          · exfalso
            subst hji
            exact hw hiw
          · by_cases hjlt : j < i
            · rw [if_pos (by omega)]
              rwa [if_pos hjlt] at this
            · rw [if_neg (by omega)]
              rwa [if_neg hjlt] at this
      obtain ⟨hl, hc⟩ := ih (i + 1) chi (by omega) hlen hcont'
      refine ⟨hl, ?_⟩
      intro j hj
      rw [hbnd]
      exact hc j hj

theorem initChild_getD (n p1 p2 : Nat) (seg : List Nat) (hp : p1 ≤ p2)
    (h2 : p2 ≤ n) (hseg : seg.length = p2 - p1) (j : Nat) (hj : j < n) :
    (initChild n p1 p2 seg).getD j none
      = if p1 ≤ j ∧ j < p2 then some (seg.getD (j - p1) 0) else none := by
  rw [initChild_eq n p1 p2 seg (by omega)]
  have hA : (List.replicate p1 (none : Option Nat)).length = p1 := by simp
  have hAB : (List.replicate p1 (none : Option Nat) ++ seg.map some).length
      = p2 := by
    simp [hseg]
    omega
  by_cases hjp1 : j < p1
  · rw [if_neg (by omega)]
    rw [List.getD_append _ _ _ _ (by omega), List.getD_append _ _ _ _ (by omega)]
    exact getD_replicate_none p1 j
  · by_cases hjp2 : j < p2
    · rw [if_pos ⟨by omega, hjp2⟩]
      rw [List.getD_append _ _ _ _ (by omega),
        List.getD_append_right _ _ _ _ (by omega)]
      rw [hA]
      have hb : j - p1 < (seg.map some).length := by
        simp [hseg]
        omega
      rw [List.getD_eq_getElem _ _ hb, List.getElem_map]
      have hb' : j - p1 < seg.length := by omega
      rw [List.getD_eq_getElem _ _ hb']
    · rw [if_neg (by omega)]
      rw [List.getD_append_right _ _ _ _ (by omega), hAB]
      exact getD_replicate_none _ _

theorem pySlice_sublist (l : List Nat) (p1 p2 : Nat) :
    pySlice l p1 p2 <+ l :=
  (List.drop_sublist _ _).trans (List.take_sublist _ _)

theorem pmx_child_perm (cities pa pb : List Nat) (M : List (Nat × Nat))
    (p1 p2 : Nat) (hnd : cities.Nodup) (hpa : pa ~ cities)
    (hpb : pb ~ cities) (hp2 : p2 ≤ cities.length)
    (hRin : ∀ g, g ∈ pySlice pb p1 p2 → g ∉ pySlice pa p1 p2 →
      get_gene_counterpart g M ∈ pySlice pa p1 p2 ∧
      get_gene_counterpart g M ∉ pySlice pb p1 p2)
    (hRinj : ∀ g g', g ∉ pySlice pa p1 p2 → g' ∉ pySlice pa p1 p2 → g ≠ g' →
      get_gene_counterpart g M ≠ get_gene_counterpart g' M) :
    (List.range cities.length).map (fun j =>
      if p1 ≤ j ∧ j < p2 then pb.getD j 0
      else if pa.getD j 0 ∈ pySlice pb p1 p2
        then get_gene_counterpart (pa.getD j 0) M else pa.getD j 0) ~ cities := by
  have hpan : pa.length = cities.length := hpa.length_eq
  have hpbn : pb.length = cities.length := hpb.length_eq
  have hand : pa.Nodup := hpa.nodup_iff.mpr hnd
  have houtS : ∀ j, j < cities.length → ¬(p1 ≤ j ∧ j < p2) →
      pa.getD j 0 ∉ pySlice pa p1 p2 := by
    intro j hj hw
    exact getD_not_mem_pySlice pa hand p1 p2 j (by omega) (by omega) (by omega)
  have hval : ∀ j, j < cities.length → ¬(p1 ≤ j ∧ j < p2) →
      ((if pa.getD j 0 ∈ pySlice pb p1 p2
        then get_gene_counterpart (pa.getD j 0) M else pa.getD j 0)
          ∈ pySlice pa p1 p2
        ↔ pa.getD j 0 ∈ pySlice pb p1 p2) := by
    intro j hj hw
    by_cases hmem : pa.getD j 0 ∈ pySlice pb p1 p2
    · rw [if_pos hmem]
      simp only [hmem, iff_true]
      exact (hRin _ hmem (houtS j hj hw)).1
    · rw [if_neg hmem]
      simp only [hmem, iff_false]
      exact houtS j hj hw
  have hnd' : ((List.range cities.length).map (fun j =>
      if p1 ≤ j ∧ j < p2 then pb.getD j 0
      else if pa.getD j 0 ∈ pySlice pb p1 p2
        then get_gene_counterpart (pa.getD j 0) M else pa.getD j 0)).Nodup := by
    apply List.Nodup.map_on ?_ (List.nodup_range _)
    intro x hx y hy hxy
    have hxn : x < cities.length := List.mem_range.mp hx
    have hyn : y < cities.length := List.mem_range.mp hy
    by_cases hxw : p1 ≤ x ∧ x < p2 <;> by_cases hyw : p1 ≤ y ∧ y < p2
    · rw [if_pos hxw, if_pos hyw] at hxy
      exact getD_inj hnd hpb hxn hyn hxy
    · rw [if_pos hxw, if_neg hyw] at hxy
      exfalso
      have hxmem : pb.getD x 0 ∈ pySlice pb p1 p2 :=
        getD_mem_pySlice pb p1 p2 x hxw.1 hxw.2 (by omega)
      rw [hxy] at hxmem
      by_cases hmem : pa.getD y 0 ∈ pySlice pb p1 p2
      · rw [if_pos hmem] at hxmem
        exact (hRin _ hmem (houtS y hyn hyw)).2 hxmem
      · rw [if_neg hmem] at hxmem
        exact hmem hxmem
    · rw [if_neg hxw, if_pos hyw] at hxy
      exfalso
      have hymem : pb.getD y 0 ∈ pySlice pb p1 p2 :=
        getD_mem_pySlice pb p1 p2 y hyw.1 hyw.2 (by omega)
      rw [← hxy] at hymem
      by_cases hmem : pa.getD x 0 ∈ pySlice pb p1 p2
      · rw [if_pos hmem] at hymem
        exact (hRin _ hmem (houtS x hxn hxw)).2 hymem
      · rw [if_neg hmem] at hymem
        exact hmem hymem
    · rw [if_neg hxw, if_neg hyw] at hxy
      by_cases hg : pa.getD x 0 = pa.getD y 0
      · exact getD_inj hnd hpa hxn hyn hg
      · exfalso
        by_cases hmx : pa.getD x 0 ∈ pySlice pb p1 p2
          <;> by_cases hmy : pa.getD y 0 ∈ pySlice pb p1 p2
        · rw [if_pos hmx, if_pos hmy] at hxy
          exact hRinj _ _ (houtS x hxn hxw) (houtS y hyn hyw) hg hxy
        · rw [if_pos hmx, if_neg hmy] at hxy
          have := (hRin _ hmx (houtS x hxn hxw)).1
          rw [hxy] at this
          exact houtS y hyn hyw this
        · rw [if_neg hmx, if_pos hmy] at hxy
          have := (hRin _ hmy (houtS y hyn hyw)).1
          rw [← hxy] at this
          exact houtS x hxn hxw this
        · rw [if_neg hmx, if_neg hmy] at hxy
          exact hg hxy
  have hsub : ((List.range cities.length).map (fun j =>
      if p1 ≤ j ∧ j < p2 then pb.getD j 0
      else if pa.getD j 0 ∈ pySlice pb p1 p2
        then get_gene_counterpart (pa.getD j 0) M else pa.getD j 0))
      ⊆ cities := by
    intro x hx
    obtain ⟨j, hj, rfl⟩ := List.mem_map.mp hx
    have hjn : j < cities.length := List.mem_range.mp hj
    by_cases hw : p1 ≤ j ∧ j < p2
    · rw [if_pos hw]
      exact hpb.mem_iff.mp (getD_mem_of_lt pb j (by omega))
    · rw [if_neg hw]
      by_cases hmem : pa.getD j 0 ∈ pySlice pb p1 p2
      · rw [if_pos hmem]
        have := (hRin _ hmem (houtS j hjn hw)).1
        exact hpa.mem_iff.mp ((pySlice_sublist pa p1 p2).subset this)
      · rw [if_neg hmem]
        exact hpa.mem_iff.mp (getD_mem_of_lt pa j (by omega))
  exact (List.Nodup.subperm hnd' hsub).perm_of_length_le (by simp)

theorem pmx_child_valid (cities pa pb : List Nat) (M : List (Nat × Nat))
    (p1 p2 nlen : Nat) (hnd : cities.Nodup) (hpa : pa ~ cities)
    (hpb : pb ~ cities) (hp1 : p1 ≤ p2) (hp2 : p2 ≤ cities.length)
    (hnlen : nlen = cities.length)
    (hRin : ∀ g, g ∈ pySlice pb p1 p2 → g ∉ pySlice pa p1 p2 →
      get_gene_counterpart g M ∈ pySlice pa p1 p2 ∧
      get_gene_counterpart g M ∉ pySlice pb p1 p2)
    (hRinj : ∀ g g', g ∉ pySlice pa p1 p2 → g' ∉ pySlice pa p1 p2 → g ≠ g' →
      get_gene_counterpart g M ≠ get_gene_counterpart g' M) :
    IsValidOpt cities
      (pmx_fill_chromosome p1 p2 M
        (initChild nlen p1 p2 (pySlice pb p1 p2)) pa) := by
  have hpan : pa.length = cities.length := hpa.length_eq
  have hpbn : pb.length = cities.length := hpb.length_eq
  have hseg : (pySlice pb p1 p2).length = p2 - p1 := by
    simp only [pySlice, List.length_drop, List.length_take]
    omega
  have hchilen : (initChild nlen p1 p2 (pySlice pb p1 p2)).length
      = cities.length := by
    rw [initChild_length nlen p1 p2 _ hp1 (by omega) hseg]
    omega
  have hcont0 : ∀ j, j < cities.length →
      (initChild nlen p1 p2 (pySlice pb p1 p2)).getD j none =
        if p1 ≤ j ∧ j < p2 then some (pb.getD j 0)
        else if j < 0 then
          some (if pa.getD j 0 ∈ pySlice pb p1 p2
            then get_gene_counterpart (pa.getD j 0) M else pa.getD j 0)
        else none := by
    intro j hj
    rw [initChild_getD nlen p1 p2 _ hp1 (by omega) hseg j (by omega)]
    by_cases hw : p1 ≤ j ∧ j < p2
    · rw [if_pos hw, if_pos hw, pySlice_getD pb p1 p2 j hw.1 hw.2 (by omega)]
    · rw [if_neg hw, if_neg hw, if_neg (by omega)]
  obtain ⟨hlenF, hcontF⟩ := pmx_fill_spec cities pa pb M p1 p2 hnd hpa hpb hp2
    (fun g hg hg' => (hRin g hg hg').1) pa.length 0
    (initChild nlen p1 p2 (pySlice pb p1 p2)) (by omega) hchilen hcont0
  have heq : pmx_fill_chromosome p1 p2 M
      (initChild nlen p1 p2 (pySlice pb p1 p2)) pa
      = (List.range' 0 pa.length).foldl (fun chrom idx =>
          if idx < p1 ∨ p2 ≤ idx then
            if some (pa.getD idx 0) ∈ chrom then
              chrom.set idx (some (get_gene_counterpart (pa.getD idx 0) M))
            else chrom.set idx (some (pa.getD idx 0))
          else chrom) (initChild nlen p1 p2 (pySlice pb p1 p2)) := by
    rw [pmx_fill_chromosome, List.range_eq_range']
  refine ⟨(List.range cities.length).map (fun j =>
      if p1 ≤ j ∧ j < p2 then pb.getD j 0
      else if pa.getD j 0 ∈ pySlice pb p1 p2
        then get_gene_counterpart (pa.getD j 0) M else pa.getD j 0), ?_, ?_⟩
  · apply List.ext_getElem
    · rw [heq, hlenF]
      simp
    · intro i h1 h2
      have hi : i < cities.length := by
        rw [heq, hlenF] at h1
        exact h1
      rw [← List.getD_eq_getElem _ none h1, heq, hcontF i hi,
        List.getElem_map, List.getElem_map, List.getElem_range]
      by_cases hw : p1 ≤ i ∧ i < p2
      · rw [if_pos hw, if_pos hw]
      · rw [if_neg hw, if_neg hw, if_pos (show i < 0 + pa.length by omega)]
  · exact pmx_child_perm cities pa pb M p1 p2 hnd hpa hpb hp2 hRin hRinj

theorem partially_mapped_crossover_valid (cities parent1 parent2 : List Nat)
    (p1 p2 : Nat) (hnd : cities.Nodup) (h1 : parent1 ~ cities)
    (h2 : parent2 ~ cities) (hp1 : p1 ≤ p2) (hp2 : p2 ≤ cities.length) :
    IsValidOpt cities (partially_mapped_crossover p1 p2 parent1 parent2).1 ∧
    IsValidOpt cities (partially_mapped_crossover p1 p2 parent1 parent2).2 := by
  have h1n : parent1.length = cities.length := h1.length_eq
  have h2n : parent2.length = cities.length := h2.length_eq
  have hand1 : parent1.Nodup := h1.nodup_iff.mpr hnd
  have hand2 : parent2.Nodup := h2.nodup_iff.mpr hnd
  have hseg1 : (pySlice parent1 p1 p2).length = p2 - p1 := by
    simp only [pySlice, List.length_drop, List.length_take]
    omega
  have hseg2 : (pySlice parent2 p1 p2).length = p2 - p1 := by
    simp only [pySlice, List.length_drop, List.length_take]
    omega
  have hMf : (((pySlice parent1 p1 p2).zip (pySlice parent2 p1 p2)).map
      Prod.fst) = pySlice parent1 p1 p2 :=
    List.map_fst_zip _ _ (by omega)
  have hMs : (((pySlice parent1 p1 p2).zip (pySlice parent2 p1 p2)).map
      Prod.snd) = pySlice parent2 p1 p2 :=
    List.map_snd_zip _ _ (by omega)
  have hf : ((((pySlice parent1 p1 p2).zip (pySlice parent2 p1 p2)).map
      Prod.fst)).Nodup := by
    rw [hMf]
    exact (pySlice_sublist parent1 p1 p2).nodup hand1
  have hs : ((((pySlice parent1 p1 p2).zip (pySlice parent2 p1 p2)).map
      Prod.snd)).Nodup := by
    rw [hMs]
    exact (pySlice_sublist parent2 p1 p2).nodup hand2
  have hRin1 : ∀ g, g ∈ pySlice parent2 p1 p2 → g ∉ pySlice parent1 p1 p2 →
      get_gene_counterpart g
        ((pySlice parent1 p1 p2).zip (pySlice parent2 p1 p2))
        ∈ pySlice parent1 p1 p2 ∧
      get_gene_counterpart g
        ((pySlice parent1 p1 p2).zip (pySlice parent2 p1 p2))
        ∉ pySlice parent2 p1 p2 := by
    intro g hg hg'
    have := (resolve_spec _ g hf hs (by rw [hMf]; exact hg')).2
      (by rw [hMs]; exact hg)
    rw [hMf, hMs] at this
    exact this
  have hRinj1 : ∀ g g', g ∉ pySlice parent1 p1 p2 →
      g' ∉ pySlice parent1 p1 p2 → g ≠ g' →
      get_gene_counterpart g
        ((pySlice parent1 p1 p2).zip (pySlice parent2 p1 p2)) ≠
      get_gene_counterpart g'
        ((pySlice parent1 p1 p2).zip (pySlice parent2 p1 p2)) := by
    intro g g' hg hg' hne
    exact resolve_inj _ g g' hf hs (by rw [hMf]; exact hg)
      (by rw [hMf]; exact hg') hne
  have hM'f : ((((pySlice parent1 p1 p2).zip (pySlice parent2 p1 p2)).map
      Prod.swap).map Prod.fst)
      = pySlice parent2 p1 p2 := by
    rw [List.map_map]
    exact hMs
  have hM's : ((((pySlice parent1 p1 p2).zip (pySlice parent2 p1 p2)).map
      Prod.swap).map Prod.snd)
      = pySlice parent1 p1 p2 := by
    rw [List.map_map]
    exact hMf
  have hf' : ((((pySlice parent1 p1 p2).zip (pySlice parent2 p1 p2)).map
      Prod.swap).map Prod.fst).Nodup := by
    rw [hM'f]
    exact (pySlice_sublist parent2 p1 p2).nodup hand2
  have hs' : ((((pySlice parent1 p1 p2).zip (pySlice parent2 p1 p2)).map
      Prod.swap).map Prod.snd).Nodup := by
    rw [hM's]
    exact (pySlice_sublist parent1 p1 p2).nodup hand1
  have hRin2 : ∀ g, g ∈ pySlice parent1 p1 p2 → g ∉ pySlice parent2 p1 p2 →
      get_gene_counterpart g
        ((pySlice parent1 p1 p2).zip (pySlice parent2 p1 p2))
        ∈ pySlice parent2 p1 p2 ∧
      get_gene_counterpart g
        ((pySlice parent1 p1 p2).zip (pySlice parent2 p1 p2))
        ∉ pySlice parent1 p1 p2 := by
    intro g hg hg'
    have := (resolve_spec _ g hf' hs' (by rw [hM'f]; exact hg')).2
      (by rw [hM's]; exact hg)
    rw [hM'f, hM's, resolve_swap] at this
    exact this
  have hRinj2 : ∀ g g', g ∉ pySlice parent2 p1 p2 →
      g' ∉ pySlice parent2 p1 p2 → g ≠ g' →
      get_gene_counterpart g
        ((pySlice parent1 p1 p2).zip (pySlice parent2 p1 p2)) ≠
      get_gene_counterpart g'
        ((pySlice parent1 p1 p2).zip (pySlice parent2 p1 p2)) := by
    intro g g' hg hg' hne
    have := resolve_inj _ g g' hf' hs' (by rw [hM'f]; exact hg)
      (by rw [hM'f]; exact hg') hne
    rw [resolve_swap, resolve_swap] at this
    exact this
  constructor
  · show IsValidOpt cities (pmx_fill_chromosome p1 p2
      ((pySlice parent1 p1 p2).zip (pySlice parent2 p1 p2))
      (initChild parent1.length p1 p2 (pySlice parent2 p1 p2)) parent1)
    exact pmx_child_valid cities parent1 parent2 _ p1 p2 parent1.length
      hnd h1 h2 hp1 hp2 h1n hRin1 hRinj1
  · show IsValidOpt cities (pmx_fill_chromosome p1 p2
      ((pySlice parent1 p1 p2).zip (pySlice parent2 p1 p2))
      (initChild parent1.length p1 p2 (pySlice parent1 p1 p2)) parent2)
    exact pmx_child_valid cities parent2 parent1 _ p1 p2 parent1.length
      hnd h2 h1 hp1 hp2 h1n hRin2 hRinj2

end PMXCorrectness

/-- C1: for every chromosome and every pair of parents that are valid
permutations of the city set, each mutation kind (`swap`, `inverse`,
`2-opt`, and `random`, whatever the internal draw) succeeds and returns a
permutation of the city set, and each crossover kind (`ox`, `pmx`, `cx`)
succeeds and returns two children that are valid permutations of the city
set (every city exactly once, no duplicates, no omissions).  The point
hypotheses mirror Python's `random.sample(range(n), k=2)` followed by
`sort()` for the crossover cut points. -/
theorem C1_permutation_invariant (cities chrom parent1 parent2 : List Nat)
    (q1 q2 rand p1 p2 : Nat) (hnd : cities.Nodup) (hc : chrom ~ cities)
    (h1 : parent1 ~ cities) (h2 : parent2 ~ cities)
    (hq1 : q1 < cities.length) (hq2 : q2 < cities.length)
    (hp : p1 < p2) (hp2 : p2 < cities.length) :
    (mutate "swap" rand q1 q2 chrom = .ok (swap_mutation chrom q1 q2) ∧
      swap_mutation chrom q1 q2 ~ cities) ∧
    (mutate "inverse" rand q1 q2 chrom
        = .ok (inversion_mutation chrom q1 q2) ∧
      inversion_mutation chrom q1 q2 ~ cities) ∧
    (mutate "2-opt" rand q1 q2 chrom = .ok (two_opt_mutation chrom q1 q2) ∧
      two_opt_mutation chrom q1 q2 ~ cities) ∧
    (∃ l, mutate "random" rand q1 q2 chrom = .ok l ∧ l ~ cities) ∧
    (crossover "ox" p1 p2 parent1 parent2
        = .ok (some (order_crossover p1 p2 parent1 parent2)) ∧
      IsValidOpt cities (order_crossover p1 p2 parent1 parent2).1 ∧
      IsValidOpt cities (order_crossover p1 p2 parent1 parent2).2) ∧
    (crossover "pmx" p1 p2 parent1 parent2
        = .ok (some (partially_mapped_crossover p1 p2 parent1 parent2)) ∧
      IsValidOpt cities (partially_mapped_crossover p1 p2 parent1 parent2).1 ∧
      IsValidOpt cities (partially_mapped_crossover p1 p2 parent1 parent2).2) ∧
    (∃ ch1 ch2, crossover "cx" p1 p2 parent1 parent2
        = .ok (some (ch1, ch2)) ∧
      IsValidOpt cities ch1 ∧ IsValidOpt cities ch2) := by
  have hcn : chrom.length = cities.length := hc.length_eq
  have hox := order_crossover_valid cities parent1 parent2 p1 p2
    hnd h1 h2 hp hp2
  have hpmx := partially_mapped_crossover_valid cities parent1 parent2 p1 p2
    hnd h1 h2 (Nat.le_of_lt hp) (Nat.le_of_lt hp2)
  obtain ⟨ch1, ch2, hcxeq, hcx1, hcx2⟩ :=
    cycle_crossover_valid hnd h1 h2 (show 0 < cities.length by omega)
  refine ⟨⟨?_, ?_⟩, ⟨?_, ?_⟩, ⟨?_, ?_⟩, ?_, ⟨?_, hox.1, hox.2⟩,
    ⟨?_, hpmx.1, hpmx.2⟩, ⟨ch1, ch2, ?_, hcx1, hcx2⟩⟩
  · unfold mutate
    rw [if_pos rfl]
  · exact (swap_mutation_perm chrom q1 q2 (by omega) (by omega)).trans hc
  · unfold mutate
    rw [if_neg (by decide), if_pos rfl]
  · exact (inversion_mutation_perm chrom q1 q2).trans hc
  · unfold mutate
    rw [if_neg (by decide), if_neg (by decide), if_pos rfl]
  · exact (two_opt_mutation_perm chrom q1 q2 (by omega)).trans hc
  · refine ⟨_, mutate_random_eq rand q1 q2 chrom, ?_⟩
    split_ifs
    · exact (swap_mutation_perm chrom q1 q2 (by omega) (by omega)).trans hc
    · exact (inversion_mutation_perm chrom q1 q2).trans hc
    · exact (two_opt_mutation_perm chrom q1 q2 (by omega)).trans hc
    · exact hc
  · unfold crossover
    rw [if_pos rfl]
  · unfold crossover
    rw [if_neg (by decide), if_pos rfl]
  · unfold crossover
    rw [if_neg (by decide), if_neg (by decide), if_pos rfl, hcxeq]

/-- Concrete instance of C1: cities `[1, 2, 3, 4]`, chromosome
`[2, 1, 4, 3]`, parents `[1, 2, 3, 4]` and `[4, 3, 2, 1]`, sample points
`0`, `2`, internal draw `1`, sorted cut points `1 < 3`. -/
theorem C1_permutation_invariant_witness :
    (mutate "swap" 1 0 2 [2, 1, 4, 3]
        = .ok (swap_mutation [2, 1, 4, 3] 0 2) ∧
      swap_mutation [2, 1, 4, 3] 0 2 ~ [1, 2, 3, 4]) ∧
    (mutate "inverse" 1 0 2 [2, 1, 4, 3]
        = .ok (inversion_mutation [2, 1, 4, 3] 0 2) ∧
      inversion_mutation [2, 1, 4, 3] 0 2 ~ [1, 2, 3, 4]) ∧
    (mutate "2-opt" 1 0 2 [2, 1, 4, 3]
        = .ok (two_opt_mutation [2, 1, 4, 3] 0 2) ∧
      two_opt_mutation [2, 1, 4, 3] 0 2 ~ [1, 2, 3, 4]) ∧
    (∃ l, mutate "random" 1 0 2 [2, 1, 4, 3] = .ok l ∧ l ~ [1, 2, 3, 4]) ∧
    (crossover "ox" 1 3 [1, 2, 3, 4] [4, 3, 2, 1]
        = .ok (some (order_crossover 1 3 [1, 2, 3, 4] [4, 3, 2, 1])) ∧
      IsValidOpt [1, 2, 3, 4]
        (order_crossover 1 3 [1, 2, 3, 4] [4, 3, 2, 1]).1 ∧
      IsValidOpt [1, 2, 3, 4]
        (order_crossover 1 3 [1, 2, 3, 4] [4, 3, 2, 1]).2) ∧
    (crossover "pmx" 1 3 [1, 2, 3, 4] [4, 3, 2, 1]
        = .ok (some (partially_mapped_crossover 1 3 [1, 2, 3, 4]
          [4, 3, 2, 1])) ∧
      IsValidOpt [1, 2, 3, 4]
        (partially_mapped_crossover 1 3 [1, 2, 3, 4] [4, 3, 2, 1]).1 ∧
      IsValidOpt [1, 2, 3, 4]
        (partially_mapped_crossover 1 3 [1, 2, 3, 4] [4, 3, 2, 1]).2) ∧
    (∃ ch1 ch2, crossover "cx" 1 3 [1, 2, 3, 4] [4, 3, 2, 1]
        = .ok (some (ch1, ch2)) ∧
      IsValidOpt [1, 2, 3, 4] ch1 ∧ IsValidOpt [1, 2, 3, 4] ch2) :=
  C1_permutation_invariant [1, 2, 3, 4] [2, 1, 4, 3] [1, 2, 3, 4]
    [4, 3, 2, 1] 0 2 1 1 3 (by decide) (by decide) (by decide) (by decide)
    (by decide) (by decide) (by decide) (by decide)

end TSP
